import Mathlib

/-!
Verification of the txtr-api request pipeline (FastAPI app in `app/`):
text cleaning (`app/utils.py`), disk cache (`app/cache.py`), rate limiting
(`app/main.py` and `app/utils.py`), fetch retry (`app/extractor.py`),
sentiment post-processing (`app/enrich.py`) and the ETag / projection
endpoints (`app/main.py`).

Strings are modelled as `List Char` wrapped into Lean `String`s; Python
floats (time stamps, token counts, sentiment scores) are modelled as `ℚ`;
the black-box third-party pieces (blake2b/sha256 digests, the trafilatura
and NLP libraries, the HTTP transport) enter as explicit parameters.
-/

namespace Txtr

/-- Whitespace as matched by Python's `str.split`, `str.strip` and the
regex class from `app/utils.py` (ASCII range). -/
def isWs (c : Char) : Bool :=
  c = ' ' || c = '\t' || c = '\n' || c = '\r' || c = '\x0b' || c = '\x0c'

/-- Word characters as matched by the regex in `word_count`
(`app/utils.py`): alphanumerics and underscore. -/
def isWordChar (c : Char) : Bool :=
  c.isAlphanum || c = '_'

/-- `re.findall` word counting from `word_count` in `app/utils.py`:
number of maximal runs of word characters.  The boolean records whether
the previous character was a word character. -/
def wordCountAux : Bool → List Char → Nat
  | _, [] => 0
  | prev, c :: cs =>
    if isWordChar c then
      if prev then wordCountAux true cs else 1 + wordCountAux true cs
    else wordCountAux false cs

/-- `word_count` from `app/utils.py`. -/
def word_count (s : String) : Nat := wordCountAux false s.data

/-- The words of `text.split()` (split on whitespace runs, dropping empty
pieces), with explicit fuel so the definition reduces in the kernel; the
fuel is always instantiated with the length of the list. -/
def wordsGo : Nat → List Char → List (List Char)
  | 0, _ => []
  | _, [] => []
  | fuel + 1, c :: cs =>
    if isWs c then wordsGo fuel cs
    else (c :: cs.takeWhile (fun x => !isWs x)) :: wordsGo fuel (cs.dropWhile (fun x => !isWs x))

def wordsL (l : List Char) : List (List Char) := wordsGo l.length l

/-- `" ".join ws`. -/
def joinWords : List (List Char) → List Char
  | [] => []
  | [w] => w
  | w :: ws => w ++ ' ' :: joinWords ws

/-- `normalize_text` from `app/utils.py`: `" ".join(text.split())`. -/
def normalizeL (l : List Char) : List Char := joinWords (wordsL l)

/-- String-level `normalize_text` (the `if not text` guard of the source
is the `s = ""` case, on which both branches agree). -/
def normalize_text (s : String) : String :=
  if s = "" then "" else ⟨normalizeL s.data⟩

/-- One `str.replace` step of `clean_citations_and_spaces`: replaces the
two-character pattern "space p" by "p", scanning left to right without
rescanning replaced output, exactly like Python `str.replace`. -/
def replacePair (p : Char) : List Char → List Char
  | a :: b :: cs =>
    if a = ' ' && b = p then b :: replacePair p cs
    else a :: replacePair p (b :: cs)
  | l => l

/-- The four chained replaces of `clean_citations_and_spaces`
(`app/utils.py`), in source order: " ,"  " ."  " ;"  " :". -/
def replacePuncts (l : List Char) : List Char :=
  replacePair ':' (replacePair ';' (replacePair '.' (replacePair ',' l)))

/-- `_SPACE_RE.sub(" ", s)`: every maximal whitespace run becomes one
space.  The boolean is true while inside a run already emitted. -/
def collapseAux : Bool → List Char → List Char
  | _, [] => []
  | inRun, c :: cs =>
    if isWs c then
      if inRun then collapseAux true cs else ' ' :: collapseAux true cs
    else c :: collapseAux false cs

def collapseL (l : List Char) : List Char := collapseAux false l

/-- Python `str.strip()`. -/
def stripL (l : List Char) : List Char :=
  ((l.dropWhile isWs).reverse.dropWhile isWs).reverse

/-- Digits-then-closing-bracket: the tail `\d*\]` of the citation regex. -/
def dtb : List Char → Bool
  | [] => false
  | c :: cs => if c = ']' then true else if c.isDigit then dtb cs else false

/-- Does the list start with a citation body `\[\d+\]`? -/
def hasCiteAt : List Char → Bool
  | a :: c :: cs => a = '[' && c.isDigit && dtb (c :: cs)
  | _ => false

/-- Does the list contain a citation marker `\[\d+\]` anywhere? -/
def hasCite : List Char → Bool
  | [] => false
  | c :: cs => hasCiteAt (c :: cs) || hasCite cs

/-- Match of `_CITE_RE` (`\s*\[\d+\]\s*`) anchored at the current
position, following Python's greedy semantics (the leading `\s*` and the
`\d+` never benefit from backtracking for this pattern): returns the rest
of the input after the match. -/
def matchCiteAt (l : List Char) : Option (List Char) :=
  match l.dropWhile isWs with
  | a :: rest =>
    if a = '[' then
      match rest.takeWhile Char.isDigit, rest.dropWhile Char.isDigit with
      | [], _ => none
      | _ :: _, b :: rest2 => if b = ']' then some (rest2.dropWhile isWs) else none
      | _, _ => none
    else none
  | [] => none

/-- `_CITE_RE.sub(" ", s)`: leftmost-first replacement of every citation
match by a single space, continuing after each match.  Fuel makes the
definition kernel-reducible; a match always consumes at least one
character, so fuel `l.length` is enough. -/
def citeGo : Nat → List Char → List Char
  | 0, l => l
  | _, [] => []
  | fuel + 1, c :: cs =>
    match matchCiteAt (c :: cs) with
    | some rest => ' ' :: citeGo fuel rest
    | none => c :: citeGo fuel cs

def citeSubL (l : List Char) : List Char := citeGo l.length l

/-- `clean_citations_and_spaces` from `app/utils.py`: citation-marker
removal, the four punctuation replaces, whitespace collapse, strip. -/
def clean_citations_and_spaces (s : String) : String :=
  if s = "" then s
  else ⟨stripL (collapseL (replacePuncts (citeSubL s.data)))⟩

/-- The cleaning composition applied to body text in `core_parse`
(`app/main.py` line 175). -/
def cleanComp (s : String) : String :=
  clean_citations_and_spaces (normalize_text s)

/-! ## Data model (`app/main.py` payload dict and `app/models.py`) -/

/-- Sentiment result of `analyze_sentiment` (`app/enrich.py`). -/
structure SentimentR where
  label : String
  score : ℚ
  deriving DecidableEq, Repr

/-- The canonical payload assembled by `core_parse` (`app/main.py`
lines 192-211); the audit-only `meta` sub-fields other than `site` are
not needed by any claim and are omitted. -/
structure Record where
  url : String
  title : String
  text : String
  language : String
  published_at : Option String
  lead_image_url : Option String
  word_count : Nat
  summary : String
  keywords : List String
  sentiment : SentimentR
  site : Option String
  deriving DecidableEq, Repr

/-! ## Cache (`app/cache.py`) -/

/-- In-memory view of one cache file's JSON blob
(`app/cache.py` `set`, and the fields read back by `get`). -/
structure StoredEntry where
  etag : String
  fetched_at : ℚ
  ttl : Int
  payload : Record
  deriving DecidableEq, Repr

/-- The dataclass returned by `cache.get`. -/
structure CacheEntry where
  etag : String
  fetched_at : ℚ
  ttl : Int
  payload : Record
  deriving DecidableEq, Repr

namespace cache

/-- `get` from `app/cache.py`, given the (parsed) content of the entry
file for the URL's key — `none` when the file is missing or malformed —
and the current `time.time()`.  An entry with `ttl > 0` strictly older
than its ttl is reported absent even though the file is present. -/
def get (file : Option StoredEntry) (now : ℚ) : Option CacheEntry :=
  match file with
  | none => none
  | some d =>
    if d.ttl > 0 ∧ now - d.fetched_at > (d.ttl : ℚ) then none
    else some ⟨d.etag, d.fetched_at, d.ttl, d.payload⟩

/-- A cache directory: the entry file (if any) per key.  Keys are
`sha256(url)` hex digests; the digest function is a parameter. -/
def Store := String → Option StoredEntry

/-- `set` from `app/cache.py`: writes the blob
`etag / fetched_at = time.time() / ttl / payload` under the URL's key
(atomic rename; the temporary file is invisible to readers). -/
def set (hashKey : String → String) (st : Store) (url : String)
    (etag : String) (payload : Record) (ttl : Int) (now : ℚ) : Store :=
  fun k => if k = hashKey url then some ⟨etag, now, ttl, payload⟩ else st k

/-- `get` looked up through the store, as the endpoints use it. -/
def getStore (hashKey : String → String) (st : Store) (url : String)
    (now : ℚ) : Option CacheEntry :=
  get (st (hashKey url)) now

end cache

/-! ## Rate limiting -/

/-- One token bucket: token count and last-refill timestamp
(`_BUCKET` values in `app/main.py`, `_buckets` values in
`app/utils.py`). -/
structure Bucket where
  tokens : ℚ
  ts : ℚ
  deriving DecidableEq, Repr

/-- Lenient burst capacity (`app/main.py` line 117):
`BURST = max(5, RATE_LIMIT_PER_MIN // 2)`. -/
def lenientBurst (ratePerMin : Nat) : Nat := max 5 (ratePerMin / 2)

/-- `_allow` from `app/main.py` (lines 120-130), for one client bucket:
given the configured `RATE_LIMIT_PER_MIN`, the current time and the
stored bucket (absent on first request), returns the admission decision
and the bucket written back. -/
def _allow (ratePerMin : Nat) (now : ℚ) (b : Option Bucket) : Bool × Bucket :=
  let tokens := (b.getD ⟨(lenientBurst ratePerMin : ℚ), now⟩).tokens
  let ts := (b.getD ⟨(lenientBurst ratePerMin : ℚ), now⟩).ts
  let refill := ((ratePerMin : ℚ) / 60) * (now - ts)
  let tokens := min (lenientBurst ratePerMin : ℚ) (tokens + refill)
  if tokens ≥ 1 then (true, ⟨tokens - 1, now⟩)
  else (false, ⟨tokens, now⟩)

/-- `RateLimiter.check_rate_limit` from `app/utils.py` (lines 68-89) for
one bucket.  `RATE = 60` and `BURST = 30` are the instance constants;
the `limit_per_min` argument is accepted (as in the source) but never
read by the body.  Returns `true` for admit, `false` for the
`RateLimitError` path, together with the bucket written back. -/
def check_rate_limit (limit_per_min : Nat) (now : ℚ) (b : Option Bucket) :
    Bool × Bucket :=
  let _ := limit_per_min
  let b0 := b.getD ⟨(30 : ℚ), now⟩
  let tokens := min (30 : ℚ) (b0.tokens + 60 * (now - b0.ts) / 60)
  if tokens < 1 then (false, ⟨tokens, now⟩)
  else (true, ⟨tokens - 1, now⟩)

/-- The admission results of `n` consecutive `_allow` calls for one
client identity, all at the same instant `now`, starting from an empty
bucket table (the B+1-instantaneous-requests experiment). -/
def allowBurstSeq (ratePerMin : Nat) (now : ℚ) : Nat → List Bool × Option Bucket
  | 0 => ([], none)
  | n + 1 =>
    let prev := allowBurstSeq ratePerMin now n
    let step := _allow ratePerMin now prev.2
    (prev.1 ++ [step.1], some step.2)

/-! ## Fetcher (`app/extractor.py` `fetch_html`) -/

/-- Errors observable from one GET attempt.  `statusErr` is the
`httpx.HTTPStatusError` raised by `response.raise_for_status()` on a
4xx/5xx status; it is a subclass of `httpx.HTTPError`, as is the
transport error, while `timeout` is `httpx.TimeoutException` — so all
three are caught by the `except (httpx.TimeoutException, httpx.HTTPError)`
clause of the source. -/
inductive FetchErr
  | timeout
  | transportErr
  | statusErr (code : Nat)
  deriving DecidableEq, Repr

/-- Outcome of one GET attempt.  A successful outcome carries the final
html and headers (for wikipedia hosts the source may substitute the
`printable=yes` rendering inside the success branch; that substitution
is internal to the attempt and abstracted into the returned pair). -/
inductive AttemptOutcome
  | ok (html : String) (headers : List (String × String))
  | err (e : FetchErr)
  deriving DecidableEq, Repr

/-- The `for attempt in range(3)` loop of `fetch_html`: `attempt` is the
current index, `left` the number of attempts remaining after it (the
source's `attempt == 2` last-attempt test is `left = 0`).  Returns the
result together with the list of back-off sleeps `0.5 * 2 ** attempt`
performed between attempts. -/
def fetchGo (a : Nat → AttemptOutcome) :
    Nat → Nat → Except FetchErr (String × List (String × String)) × List ℚ
  | attempt, 0 =>
    (match a attempt with
     | .ok h hd => (.ok (h, hd), [])
     | .err e => (.error e, []))
  | attempt, left + 1 =>
    match a attempt with
    | .ok h hd => (.ok (h, hd), [])
    | .err _ =>
      let r := fetchGo a (attempt + 1) left
      (r.1, (1 / 2 : ℚ) * 2 ^ attempt :: r.2)

/-- `fetch_html` from `app/extractor.py`, as a function of the outcome
of each attempt. -/
def fetch_html (a : Nat → AttemptOutcome) :
    Except FetchErr (String × List (String × String)) × List ℚ :=
  fetchGo a 0 2

/-! ## Sentiment (`app/enrich.py` `analyze_sentiment`) -/

/-- Python `needle in haystack` substring test. -/
def startsWithL : List Char → List Char → Bool
  | _, [] => true
  | [], _ :: _ => false
  | h :: hs, n :: ns => h = n && startsWithL hs ns

def containsSub (needle : List Char) : List Char → Bool
  | [] => needle.isEmpty
  | h :: t => startsWithL (h :: t) needle || containsSub needle t

/-- `NEUTRAL_DOMAINS` from `analyze_sentiment` (`app/enrich.py`). -/
def NEUTRAL_DOMAINS : List String :=
  ["wikipedia.org", "wikidata.org", "britannica.com", "baike.baidu.com",
   "encyclopedia.com", "investopedia.com", "dictionary.com",
   "collinsdictionary.com", "thefreedictionary.com", "wordreference.com"]

/-- `source_url and any(domain in source_url for domain in NEUTRAL_DOMAINS)`. -/
def isNeutralDomain : Option String → Bool
  | none => false
  | some u => NEUTRAL_DOMAINS.any fun d => containsSub d.data u.data

/-- Python `round(x, 4)` modelled as rounding to the nearest multiple of
`1/10000` (Python breaks exact ties to even, Mathlib's `round` rounds
ties up; no property below depends on tie direction). -/
def round4 (x : ℚ) : ℚ := (round (x * 10000) : ℚ) / 10000

/-- `analyze_sentiment` from `app/enrich.py` (lines 210-262).  The VADER
compound average over the sentence split is a black-box float, passed in
as `comp`; `libFails` models the `except` path (missing lexicon etc.).
The source first returns neutral/0.0 for whitespace-only input, then
clamps `comp` to `[-0.04, 0.04]` for neutral domains and to
`[-0.6, 0.6]` otherwise, labels with the strict `±0.05` thresholds, and
rounds the score to 4 decimals. -/
def analyze_sentiment (text : String) (source_url : Option String)
    (comp : ℚ) (libFails : Bool) : SentimentR :=
  if stripL text.data = [] then ⟨"neutral", 0⟩
  else if libFails then ⟨"neutral", 0⟩
  else
    let comp :=
      if isNeutralDomain source_url then max (min comp (4 / 100)) (-(4 / 100))
      else max (min comp (6 / 10)) (-(6 / 10))
    let label :=
      if comp > 5 / 100 then "positive"
      else if comp < -(5 / 100) then "negative"
      else "neutral"
    ⟨label, round4 comp⟩

/-! ## Orchestrator (`app/main.py`) -/

def PARSER_VERSION : String := "v1"

/-- `_etag_for` from `app/main.py` (lines 142-144); the blake2b digest
is a black-box deterministic function of its input, passed in as
`digest`. -/
def etag_for (digest : String → String) (url : String) : String :=
  "W/\"" ++ digest (url ++ "|" ++ PARSER_VERSION) ++ "\""

/-- HTTP responses an endpoint can produce: 304 (no body), 200 with a
body and an ETag header, or an error status. -/
inductive HResp (α : Type)
  | notModified
  | ok (body : α) (etag : String)
  | err (status : Nat)
  deriving DecidableEq, Repr

/-- `core_parse` from `app/main.py` (lines 160-213) after the fetch: the
415 content-type gate, the clean/word-count 422 gate, and assembly of
the payload.  The extraction and enrichment library outputs are inputs. -/
def core_parse (url : String) (contentTypeHtml : Bool) (rawText : String)
    (title : String) (image : Option String) (published : Option String)
    (site : Option String) (language : String) (summary : String)
    (keywords : List String) (sentiment : SentimentR) : Except Nat Record :=
  if ¬ contentTypeHtml then .error 415
  else
    let text := cleanComp rawText
    if text = "" ∨ word_count text < 10 then .error 422
    else .ok
      { url := url, title := title, text := text, language := language
        published_at := published, lead_image_url := image
        word_count := word_count text, summary := summary
        keywords := keywords, sentiment := sentiment, site := site }

/-- The `/v1/parse` handler (`app/main.py` lines 298-324) for one
request: `inm` is the If-None-Match header, `cached` the result both
`cache_get` calls see (one cache state per request), `fresh` the outcome
of `core_parse` on a miss.  Responds 304 only when the conditional
header matches the current tag and a cache entry with that tag exists;
on a tag-matching hit, 200 with the cached payload; otherwise the fresh
payload or the propagated error. -/
def parseEndpoint (digest : String → String) (url : String)
    (inm : Option String) (cached : Option CacheEntry)
    (fresh : Except Nat Record) : HResp Record :=
  let etag := etag_for digest url
  match cached with
  | some c =>
    if inm = some etag ∧ c.etag = etag then .notModified
    else if c.etag = etag then .ok c.payload etag
    else match fresh with
      | .ok p => .ok p etag
      | .error s => .err s
  | none =>
    match fresh with
    | .ok p => .ok p etag
    | .error s => .err s

/-- `_project_metadata` (`app/main.py` lines 217-226). -/
structure MetadataProj where
  url : String
  title : String
  language : String
  published_at : Option String
  lead_image_url : Option String
  word_count : Nat
  site : Option String
  deriving DecidableEq, Repr

def _project_metadata (full : Record) : MetadataProj :=
  ⟨full.url, full.title, full.language, full.published_at,
   full.lead_image_url, full.word_count, full.site⟩

/-- `_project_summary` (`app/main.py` lines 229-238). -/
structure SummaryProj where
  url : String
  title : String
  summary : String
  keywords : List String
  sentiment : SentimentR
  language : String
  site : Option String
  deriving DecidableEq, Repr

def _project_summary (full : Record) : SummaryProj :=
  ⟨full.url, full.title, full.summary, full.keywords, full.sentiment,
   full.language, full.site⟩

/-- `_project_preview` (`app/main.py` lines 241-251): snippet is the
summary if non-empty else the body text, truncated to its first 280
characters plus an ellipsis when its length exceeds 300. -/
structure PreviewProj where
  url : String
  title : String
  snippet : String
  lead_image_url : Option String
  published_at : Option String
  site : Option String
  deriving DecidableEq, Repr

def _project_preview (full : Record) : PreviewProj :=
  let text := if full.summary ≠ "" then full.summary else full.text
  let snippet := if text.length > 300 then text.take 280 ++ "…" else text
  ⟨full.url, full.title, snippet, full.lead_image_url, full.published_at,
   full.site⟩

/-- The common shape of the `/v1/metadata`, `/v1/summary` and
`/v1/preview` handlers (`app/main.py` lines 327-378): compare the
If-None-Match header against the suffixed tag and answer 304 at once on
a match — before any cache or pipeline work — else delegate to the parse
handler (same request, so same header and cache view) and project its
body. -/
def projEndpoint {α : Type} (digest : String → String) (suffix : String)
    (proj : Record → α) (url : String) (inm : Option String)
    (cached : Option CacheEntry) (fresh : Except Nat Record) : HResp α :=
  let etag := etag_for digest url ++ suffix
  if inm = some etag then .notModified
  else
    match parseEndpoint digest url inm cached fresh with
    | .notModified => .notModified
    | .ok p _ => .ok (proj p) etag
    | .err s => .err s

/-- `/v1/metadata` handler. -/
def metadataEndpoint (digest : String → String) (url : String)
    (inm : Option String) (cached : Option CacheEntry)
    (fresh : Except Nat Record) : HResp MetadataProj :=
  projEndpoint digest "-meta" _project_metadata url inm cached fresh

/-- `/v1/summary` handler. -/
def summaryEndpoint (digest : String → String) (url : String)
    (inm : Option String) (cached : Option CacheEntry)
    (fresh : Except Nat Record) : HResp SummaryProj :=
  projEndpoint digest "-sum" _project_summary url inm cached fresh

/-- `/v1/preview` handler. -/
def previewEndpoint (digest : String → String) (url : String)
    (inm : Option String) (cached : Option CacheEntry)
    (fresh : Except Nat Record) : HResp PreviewProj :=
  projEndpoint digest "-prev" _project_preview url inm cached fresh

/-! ## Analysis predicates and concrete instances used by the theorems -/

/-- "No occurrence of the two-character pattern space-`t`". -/
def nsb (t : Char) : List Char → Bool
  | a :: b :: cs => !(a = ' ' && b = t) && nsb t (b :: cs)
  | _ => true

/-- Every whitespace character is a plain space. -/
def onlySpace (l : List Char) : Bool := l.all fun c => c = ' ' || !isWs c

/-- The first character (if any) is not whitespace. -/
def headNotWs : List Char → Bool
  | [] => true
  | c :: _ => !isWs c

/-- The last character (if any) is not whitespace. -/
def lastNotWs (l : List Char) : Bool := headNotWs l.reverse

/-- The snippet source of `_project_preview`: the summary when
non-empty, else the body text. -/
def snippetSource (full : Record) : String :=
  if full.summary ≠ "" then full.summary else full.text

/-- A record whose chosen preview text is 290 characters long —
strictly between the 280-character cut and the 300-character test. -/
def midSummary : String := ⟨List.replicate 290 'a'⟩

def midRecord : Record :=
  { url := "https://example.com/a", title := "t", text := "body text here"
    language := "en", published_at := none, lead_image_url := none
    word_count := 42, summary := midSummary, keywords := []
    sentiment := ⟨"neutral", 0⟩, site := none }

/-- Attempt trace whose first GET yields an HTTP 404 status error and
whose second GET succeeds. -/
def notFoundThenOk : Nat → AttemptOutcome := fun k =>
  if k = 0 then .err (.statusErr 404) else .ok "<html>ok</html>" []

/-! # Theorems -/

/-- C4: a cache entry with positive ttl whose age strictly exceeds the
ttl is reported absent by `get` although the entry file is present,
while an entry with ttl = 0 is returned no matter how old it is. -/
theorem C4_cache_soft_expiry (e : StoredEntry) (now : ℚ) :
    (0 < e.ttl → (e.ttl : ℚ) < now - e.fetched_at → cache.get (some e) now = none) ∧
    (e.ttl = 0 → cache.get (some e) now =
      some ⟨e.etag, e.fetched_at, e.ttl, e.payload⟩) := by
  constructor
  · intro h1 h2
    have hc : e.ttl > 0 ∧ now - e.fetched_at > (e.ttl : ℚ) := ⟨h1, h2⟩
    simp [cache.get, hc]
  · intro h0
    simp [cache.get, h0]

/-- Witness for C4 at a concrete expired entry and a concrete immortal
entry. -/
theorem C4_cache_soft_expiry_witness :
    cache.get (some ⟨"W/\"t\"", 0, 5, midRecord⟩) 6 = none ∧
    cache.get (some ⟨"W/\"t\"", 0, 0, midRecord⟩) 1000000 =
      some ⟨"W/\"t\"", 0, 0, midRecord⟩ :=
  ⟨(C4_cache_soft_expiry ⟨"W/\"t\"", 0, 5, midRecord⟩ 6).1 (by norm_num) (by norm_num),
   (C4_cache_soft_expiry ⟨"W/\"t\"", 0, 0, midRecord⟩ 1000000).2 rfl⟩

/-- C5: `set` followed by `get` for the same url, at any instant before
the entry's ttl has elapsed (in particular immediately), returns an
entry carrying exactly the etag and payload that were stored. -/
theorem C5_cache_roundtrip (digest : String → String) (st : cache.Store)
    (url etag : String) (payload : Record) (ttl : Int) (now now' : ℚ)
    (h : 0 < ttl → now' - now ≤ (ttl : ℚ)) :
    cache.getStore digest (cache.set digest st url etag payload ttl now) url now'
      = some ⟨etag, now, ttl, payload⟩ := by
  have hcond : ¬ (ttl > 0 ∧ now' - now > (ttl : ℚ)) := by
    rintro ⟨h1, h2⟩
    exact absurd (h h1) (not_le.mpr h2)
  simp [cache.getStore, cache.set, cache.get, hcond]

/-- Witness for C5 at a concrete store, url and payload, read back just
inside the ttl window. -/
theorem C5_cache_roundtrip_witness :
    cache.getStore (fun s => s) (cache.set (fun s => s) (fun _ => none)
        "https://example.com" "W/\"abc\"" midRecord 3600 100)
      "https://example.com" 3700 = some ⟨"W/\"abc\"", 100, 3600, midRecord⟩ :=
  C5_cache_roundtrip (fun s => s) (fun _ => none) "https://example.com"
    "W/\"abc\"" midRecord 3600 100 3700 (fun _ => by norm_num)

/-- C8 counterexample: `midRecord`'s summary is 290 characters long —
longer than 280 — yet the preview snippet is the whole summary, not the
280-character truncation with an ellipsis that the claim requires. -/
theorem C8_counterexample :
    280 < midSummary.length ∧
    (_project_preview midRecord).snippet = midSummary ∧
    (_project_preview midRecord).snippet ≠ midSummary.take 280 ++ "…" := by
  have hlen : midSummary.length = 290 := List.length_replicate 290 'a'
  have hne : midSummary ≠ "" := by
    intro h
    have h2 : (290 : Nat) = 0 := by rw [← hlen, h]; rfl
    exact absurd h2 (by omega)
  have hsum : midRecord.summary = midSummary := rfl
  have hsnip : (_project_preview midRecord).snippet = midSummary := by
    simp only [_project_preview, hsum]
    rw [if_pos hne, if_neg (by omega)]
  refine ⟨by omega, hsnip, ?_⟩
  rw [hsnip]
  intro h
  have h2 := congrArg String.length h
  rw [hlen, String.length_append, String.take_eq] at h2
  have h3 : (String.mk (midSummary.data.take 280)).length
      = (midSummary.data.take 280).length := rfl
  rw [h3, List.length_take] at h2
  have h4 : midSummary.data.length = 290 := List.length_replicate 290 'a'
  have h5 : ("…" : String).length = 1 := rfl
  rw [h4, h5] at h2
  omega

/-- C8 amended: the preview snippet is the summary when the summary is
non-empty and otherwise the body text; that text is returned whole
whenever its length is at most 300 characters, and is truncated to its
first 280 characters with an appended ellipsis only when its length
exceeds 300. -/
theorem C8_preview_snippet (full : Record) :
    (full.summary ≠ "" → snippetSource full = full.summary) ∧
    (full.summary = "" → snippetSource full = full.text) ∧
    ((snippetSource full).length ≤ 300 →
      (_project_preview full).snippet = snippetSource full) ∧
    (300 < (snippetSource full).length →
      (_project_preview full).snippet = (snippetSource full).take 280 ++ "…") := by
  have hT : (if full.summary ≠ "" then full.summary else full.text)
      = snippetSource full := rfl
  refine ⟨fun h => by simp [snippetSource, h], fun h => by simp [snippetSource, h],
    fun h => ?_, fun h => ?_⟩
  · simp only [_project_preview]
    rw [hT, if_neg (by omega)]
  · simp only [_project_preview]
    rw [hT, if_pos h]

/-- Witness for C8 amended: a record with a 290-character non-empty
summary kept whole, and one whose 301-character body text gets
truncated. -/
theorem C8_preview_snippet_witness :
    (snippetSource midRecord = midRecord.summary ∧
      (_project_preview midRecord).snippet = snippetSource midRecord) ∧
    (_project_preview { midRecord with summary := "", text := ⟨List.replicate 301 'b'⟩ }).snippet
      = (snippetSource { midRecord with summary := "", text := ⟨List.replicate 301 'b'⟩ }).take 280
        ++ "…" := by
  have hlen : midSummary.length = 290 := List.length_replicate 290 'a'
  have hne : midRecord.summary ≠ "" := by
    show midSummary ≠ ""
    intro h
    have h2 : (290 : Nat) = 0 := by rw [← hlen, h]; rfl
    exact absurd h2 (by omega)
  have hss : snippetSource midRecord = midSummary := if_pos hne
  have hlen300 : (snippetSource midRecord).length ≤ 300 := by rw [hss, hlen]; omega
  refine ⟨⟨(C8_preview_snippet midRecord).1 hne,
    (C8_preview_snippet midRecord).2.2.1 hlen300⟩, ?_⟩
  have hs2 : ({ midRecord with summary := "", text := ⟨List.replicate 301 'b'⟩ } : Record).summary
      = "" := rfl
  have hss2 : snippetSource { midRecord with summary := "", text := ⟨List.replicate 301 'b'⟩ }
      = ⟨List.replicate 301 'b'⟩ :=
    (C8_preview_snippet _).2.1 hs2
  have hlen2 : (300 : Nat) <
      (snippetSource { midRecord with summary := "", text := ⟨List.replicate 301 'b'⟩ }).length := by
    rw [hss2]
    have : (String.mk (List.replicate 301 'b')).length = 301 := List.length_replicate 301 'b'
    omega
  exact (C8_preview_snippet _).2.2.2 hlen2

/-- C10: each projection endpoint answers 304 as soon as the
If-None-Match header equals its suffixed entity tag, for every cache
state (including no entry at all) and every pipeline outcome (including
failure) — no cache existence check is made. -/
theorem C10_projection_conditional_304 (digest : String → String) (url : String)
    (cached : Option CacheEntry) (fresh : Except Nat Record) :
    metadataEndpoint digest url (some (etag_for digest url ++ "-meta")) cached fresh
      = .notModified ∧
    summaryEndpoint digest url (some (etag_for digest url ++ "-sum")) cached fresh
      = .notModified ∧
    previewEndpoint digest url (some (etag_for digest url ++ "-prev")) cached fresh
      = .notModified := by
  refine ⟨?_, ?_, ?_⟩ <;>
    simp [metadataEndpoint, summaryEndpoint, previewEndpoint, projEndpoint]

/-- C1: the parse endpoint answers 304 (bodiless by construction)
exactly when the If-None-Match header equals the current entity tag and
a cache entry whose stored etag equals that tag exists; and every 200
response carries the entity tag `etag_for digest url`, a pure function
of the url — so a second request for the same url within the TTL window
(or at any time) sees the identical tag. -/
theorem C1_parse_conditional (digest : String → String) (url : String)
    (inm : Option String) (cached : Option CacheEntry) (fresh : Except Nat Record) :
    (parseEndpoint digest url inm cached fresh = .notModified ↔
      inm = some (etag_for digest url) ∧
        ∃ c, cached = some c ∧ c.etag = etag_for digest url) ∧
    (∀ p e, parseEndpoint digest url inm cached fresh = .ok p e →
      e = etag_for digest url) := by
  constructor
  · constructor
    · intro h
      cases cached with
      | none =>
        simp only [parseEndpoint] at h
        cases fresh <;> simp_all
      | some c =>
        simp only [parseEndpoint] at h
        by_cases h1 : inm = some (etag_for digest url) ∧ c.etag = etag_for digest url
        · exact ⟨h1.1, c, rfl, h1.2⟩
        · rw [if_neg h1] at h
          by_cases h2 : c.etag = etag_for digest url
          · rw [if_pos h2] at h
            exact absurd h (by simp)
          · rw [if_neg h2] at h
            cases fresh <;> simp_all
    · rintro ⟨hi, c, hc, he⟩
      subst hc
      simp only [parseEndpoint]
      rw [if_pos ⟨hi, he⟩]
  · intro p e h
    cases cached with
    | none =>
      simp only [parseEndpoint] at h
      cases fresh <;> simp_all
    | some c =>
      simp only [parseEndpoint] at h
      by_cases h1 : inm = some (etag_for digest url) ∧ c.etag = etag_for digest url
      · rw [if_pos h1] at h
        exact absurd h (by simp)
      · rw [if_neg h1] at h
        by_cases h2 : c.etag = etag_for digest url
        · rw [if_pos h2] at h
          injection h with h3 h4
          exact h4.symm
        · rw [if_neg h2] at h
          cases fresh <;> simp_all

/-- Witness for C1: a matching conditional request with a matching
cache entry yields 304, and a fresh 200 carries the computed tag. -/
theorem C1_parse_conditional_witness :
    parseEndpoint (fun s => s) "https://example.com"
        (some (etag_for (fun s => s) "https://example.com"))
        (some ⟨etag_for (fun s => s) "https://example.com", 0, 3600, midRecord⟩)
        (.ok midRecord) = .notModified ∧
    etag_for (fun s => s) "https://example.com" = etag_for (fun s => s) "https://example.com" ∧
    (∀ p e, parseEndpoint (fun s => s) "https://example.com" none none (.ok midRecord)
        = .ok p e → e = etag_for (fun s => s) "https://example.com") :=
  ⟨(C1_parse_conditional (fun s => s) "https://example.com"
      (some (etag_for (fun s => s) "https://example.com"))
      (some ⟨etag_for (fun s => s) "https://example.com", 0, 3600, midRecord⟩)
      (.ok midRecord)).1.mpr ⟨rfl, _, rfl, rfl⟩,
   rfl,
   (C1_parse_conditional (fun s => s) "https://example.com" none none (.ok midRecord)).2⟩

/-- C2: whenever the cleaned body text has fewer than 10 words the
parse pipeline fails with the 422 parse_failed error (given the
content-type gate was passed), and every successfully assembled record
has at least 10 words of body text, with the word_count field derived
from that text. -/
theorem C2_min_word_gate (url rawText title language summary : String)
    (image published site : Option String) (keywords : List String)
    (sent : SentimentR) (ct : Bool) :
    (word_count (cleanComp rawText) < 10 →
      core_parse url true rawText title image published site language summary keywords sent
        = .error 422) ∧
    (∀ r, core_parse url ct rawText title image published site language summary keywords sent
        = .ok r → 10 ≤ word_count r.text ∧ r.word_count = word_count r.text) := by
  constructor
  · intro h
    have hc : cleanComp rawText = "" ∨ word_count (cleanComp rawText) < 10 := Or.inr h
    simp [core_parse, hc]
  · intro r h
    simp only [core_parse] at h
    by_cases hct : ct
    · rw [if_neg (by simp [hct])] at h
      by_cases hcond : cleanComp rawText = "" ∨ word_count (cleanComp rawText) < 10
      · rw [if_pos hcond] at h
        exact absurd h (by simp)
      · rw [if_neg hcond] at h
        push_neg at hcond
        injection h with h2
        subst h2
        exact ⟨hcond.2, rfl⟩
    · rw [if_pos (by simp [hct])] at h
      exact absurd h (by simp)

/-- Witness for C2: three words of cleaned input fail with 422, and a
successful twelve-word parse has word count at least 10. -/
theorem C2_min_word_gate_witness :
    core_parse "https://example.com" true "too few words" "t" none none none "en" ""
        [] ⟨"neutral", 0⟩ = .error 422 ∧
    (∀ r, core_parse "https://example.com" true
        "one two three four five six seven eight nine ten eleven twelve" "t"
        none none none "en" "" [] ⟨"neutral", 0⟩ = .ok r →
      10 ≤ word_count r.text ∧ r.word_count = word_count r.text) :=
  ⟨(C2_min_word_gate "https://example.com" "too few words" "t" "en" "" none none none
      [] ⟨"neutral", 0⟩ true).1 (by decide),
   (C2_min_word_gate "https://example.com"
      "one two three four five six seven eight nine ten eleven twelve" "t" "en" ""
      none none none [] ⟨"neutral", 0⟩ true).2⟩

/-- C6 counterexample: an attempt trace whose first GET raises an HTTP
404 status error is retried — after the 0.5 s back-off the second GET's
response is returned — instead of raising immediately on the first
attempt as the claim states. -/
theorem C6_counterexample :
    fetch_html notFoundThenOk = (.ok ("<html>ok</html>", []), [1 / 2]) ∧
    fetch_html notFoundThenOk ≠ (.error (.statusErr 404), []) := by
  constructor
  · show fetchGo notFoundThenOk 0 2 = _
    norm_num [fetchGo, notFoundThenOk]
  · intro h
    rw [show fetch_html notFoundThenOk = (.ok ("<html>ok</html>", []), [1 / 2]) by
      show fetchGo notFoundThenOk 0 2 = _
      norm_num [fetchGo, notFoundThenOk]] at h
    simp at h

/-- C6 amended: `fetch_html` makes up to 3 attempts, sleeping
`0.5 * 2 ** attempt` seconds after each failed non-final attempt, and
treats timeouts, transport errors and 4xx/5xx status errors (all caught
by the `except (httpx.TimeoutException, httpx.HTTPError)` clause)
uniformly: any of them is retried, and after the third failure the last
error is re-raised.  4xx/5xx responses are therefore retried, not
raised immediately. -/
theorem C6_fetch_retry (a : Nat → AttemptOutcome) :
    (∀ h hd, a 0 = .ok h hd → fetch_html a = (.ok (h, hd), [])) ∧
    (∀ e h hd, a 0 = .err e → a 1 = .ok h hd →
      fetch_html a = (.ok (h, hd), [1 / 2])) ∧
    (∀ e0 e1 h hd, a 0 = .err e0 → a 1 = .err e1 → a 2 = .ok h hd →
      fetch_html a = (.ok (h, hd), [1 / 2, 1])) ∧
    (∀ e0 e1 e2, a 0 = .err e0 → a 1 = .err e1 → a 2 = .err e2 →
      fetch_html a = (.error e2, [1 / 2, 1])) := by
  refine ⟨fun h hd h0 => ?_, fun e h hd h0 h1 => ?_,
    fun e0 e1 h hd h0 h1 h2 => ?_, fun e0 e1 e2 h0 h1 h2 => ?_⟩ <;>
    · show fetchGo a 0 2 = _
      norm_num [fetchGo, h0]
      try norm_num [fetchGo, ‹a 1 = _›]
      try norm_num [fetchGo, ‹a 2 = _›]

/-- Witness for C6 amended: the concrete 404-then-success trace takes
the retry branch and succeeds on the second attempt. -/
theorem C6_fetch_retry_witness :
    notFoundThenOk 0 = .err (.statusErr 404) ∧
    notFoundThenOk 1 = .ok "<html>ok</html>" [] ∧
    fetch_html notFoundThenOk = (.ok ("<html>ok</html>", []), [1 / 2]) :=
  ⟨rfl, rfl,
   (C6_fetch_retry notFoundThenOk).2.1 (.statusErr 404) "<html>ok</html>" [] rfl rfl⟩

/-- Rounding to 4 decimal places respects any bound that is an integer
multiple of 1/10000. -/
theorem abs_round4_le (x : ℚ) (n : ℤ) (h : |x| ≤ (n : ℚ) / 10000) :
    |round4 x| ≤ (n : ℚ) / 10000 := by
  have h1 : |x * 10000| ≤ (n : ℚ) := by
    rw [abs_mul, show |(10000 : ℚ)| = 10000 by norm_num]
    calc |x| * 10000 ≤ ((n : ℚ) / 10000) * 10000 := by
          exact mul_le_mul_of_nonneg_right h (by norm_num)
      _ = (n : ℚ) := by ring
  rw [abs_le] at h1
  have hub : round (x * 10000) ≤ n := by
    rw [round_eq]
    have hlt : ⌊x * 10000 + 1 / 2⌋ < n + 1 := by
      rw [Int.floor_lt]
      push_cast
      linarith [h1.2]
    omega
  have hlb : -n ≤ round (x * 10000) := by
    rw [round_eq, Int.le_floor]
    push_cast
    linarith [h1.1]
  have habs : |round (x * 10000)| ≤ n := abs_le.mpr ⟨by omega, hub⟩
  rw [round4, abs_div, show |(10000 : ℚ)| = 10000 by norm_num]
  rw [div_le_div_iff_of_pos_right (by norm_num : (0 : ℚ) < 10000)]
  calc |(round (x * 10000) : ℚ)| = ((|round (x * 10000)| : ℤ) : ℚ) := by
        rw [Int.cast_abs]
    _ ≤ (n : ℚ) := by exact_mod_cast habs

/-- C9: `analyze_sentiment` always yields a label among negative,
neutral, positive and a score of absolute value at most 0.6; when the
source url contains a neutral domain the score is clamped to at most
0.04 in absolute value and the label is forced neutral; and a
whitespace-only input or an internal library failure yields exactly
the neutral 0.0 result. -/
theorem C9_sentiment_bounds (text : String) (src : Option String)
    (comp : ℚ) (fails : Bool) :
    ((analyze_sentiment text src comp fails).label = "negative" ∨
     (analyze_sentiment text src comp fails).label = "neutral" ∨
     (analyze_sentiment text src comp fails).label = "positive") ∧
    |(analyze_sentiment text src comp fails).score| ≤ 6 / 10 ∧
    (isNeutralDomain src = true →
      (analyze_sentiment text src comp fails).label = "neutral" ∧
      |(analyze_sentiment text src comp fails).score| ≤ 4 / 100) ∧
    (stripL text.data = [] ∨ fails = true →
      analyze_sentiment text src comp fails = ⟨"neutral", 0⟩) := by
  simp only [analyze_sentiment]
  by_cases hstrip : stripL text.data = []
  · rw [if_pos hstrip]
    exact ⟨Or.inr (Or.inl rfl), by norm_num, fun _ => ⟨rfl, by norm_num⟩, fun _ => rfl⟩
  · rw [if_neg hstrip]
    by_cases hfail : fails = true
    · rw [if_pos hfail]
      exact ⟨Or.inr (Or.inl rfl), by norm_num, fun _ => ⟨rfl, by norm_num⟩, fun _ => rfl⟩
    · rw [if_neg hfail]
      by_cases hdom : isNeutralDomain src = true
      · rw [if_pos hdom]
        have hzb : -(4 / 100) ≤ max (min comp (4 / 100)) (-(4 / 100)) ∧
            max (min comp (4 / 100)) (-(4 / 100)) ≤ 4 / 100 :=
          ⟨le_max_right _ _, max_le (min_le_right _ _) (by norm_num)⟩
        have hnotpos : ¬ max (min comp (4 / 100)) (-(4 / 100)) > 5 / 100 := by
          rw [not_lt]
          linarith [hzb.2]
        have hnotneg : ¬ max (min comp (4 / 100)) (-(4 / 100)) < -(5 / 100) := by
          rw [not_lt]
          linarith [hzb.1]
        rw [if_neg hnotpos, if_neg hnotneg]
        have h400 : ((400 : ℤ) : ℚ) / 10000 = 4 / 100 := by norm_num
        have hsc : |round4 (max (min comp (4 / 100)) (-(4 / 100)))| ≤ 4 / 100 := by
          have hb : |max (min comp (4 / 100)) (-(4 / 100))| ≤ ((400 : ℤ) : ℚ) / 10000 := by
            rw [h400, abs_le]
            exact hzb
          have := abs_round4_le _ 400 hb
          rwa [h400] at this
        refine ⟨Or.inr (Or.inl rfl), le_trans hsc (by norm_num),
          fun _ => ⟨rfl, hsc⟩, fun hb => ?_⟩
        rcases hb with hb | hb
        · exact absurd hb hstrip
        · exact absurd hb hfail
      · rw [if_neg hdom]
        have hzb : -(6 / 10) ≤ max (min comp (6 / 10)) (-(6 / 10)) ∧
            max (min comp (6 / 10)) (-(6 / 10)) ≤ 6 / 10 :=
          ⟨le_max_right _ _, max_le (min_le_right _ _) (by norm_num)⟩
        have h6000 : ((6000 : ℤ) : ℚ) / 10000 = 6 / 10 := by norm_num
        have hsc : |round4 (max (min comp (6 / 10)) (-(6 / 10)))| ≤ 6 / 10 := by
          have hb : |max (min comp (6 / 10)) (-(6 / 10))| ≤ ((6000 : ℤ) : ℚ) / 10000 := by
            rw [h6000, abs_le]
            exact hzb
          have := abs_round4_le _ 6000 hb
          rwa [h6000] at this
        refine ⟨?_, hsc, fun hd => absurd hd hdom, fun hb => ?_⟩
        · by_cases p1 : max (min comp (6 / 10)) (-(6 / 10)) > 5 / 100
          · rw [if_pos p1]
            exact Or.inr (Or.inr rfl)
          · rw [if_neg p1]
            by_cases p2 : max (min comp (6 / 10)) (-(6 / 10)) < -(5 / 100)
            · rw [if_pos p2]
              exact Or.inl rfl
            · rw [if_neg p2]
              exact Or.inr (Or.inl rfl)
        · rcases hb with hb | hb
          · exact absurd hb hstrip
          · exact absurd hb hfail

/-- Witness for C9: a neutral-domain article text is labelled neutral
with tiny score, and a plain text keeps its score within 0.6. -/
theorem C9_sentiment_bounds_witness :
    isNeutralDomain (some "https://en.wikipedia.org/wiki/Cactus") = true ∧
    (analyze_sentiment "Great cactus." (some "https://en.wikipedia.org/wiki/Cactus")
        (9 / 10) false).label = "neutral" ∧
    |(analyze_sentiment "Great cactus." (some "https://en.wikipedia.org/wiki/Cactus")
        (9 / 10) false).score| ≤ 4 / 100 ∧
    analyze_sentiment "   " none (9 / 10) false = ⟨"neutral", 0⟩ := by
  have hdom : isNeutralDomain (some "https://en.wikipedia.org/wiki/Cactus") = true := by
    decide
  have h1 := (C9_sentiment_bounds "Great cactus."
    (some "https://en.wikipedia.org/wiki/Cactus") (9 / 10) false).2.2.1 hdom
  have h2 := (C9_sentiment_bounds "   " none (9 / 10) false).2.2.2
    (Or.inl (by decide))
  exact ⟨hdom, h1.1, h1.2, h2⟩

/-- C3 counterexample: for the strict limiter with `limit_per_min = 240`
and a bucket that was emptied a quarter-second ago, the claimed refill
`elapsed * limitPerMin / 60 = 1` would reach one token, so the claim
says the request is admitted — but the code (which refills at its fixed
internal 60/min rate, ignoring `limit_per_min`) rejects it. -/
theorem C3_counterexample :
    (check_rate_limit 240 (1 / 4) (some ⟨0, 0⟩)).1 = false ∧
    1 ≤ min (30 : ℚ) (0 + ((240 : ℚ) / 60) * (1 / 4 - 0)) := by
  constructor
  · norm_num [check_rate_limit]
  · norm_num

/-- `_allow` at the same instant as the bucket's last refill, with a
token count already within the burst cap: no refill occurs; one token
is consumed exactly when at least one is available. -/
theorem _allow_same_time (R : Nat) (now : ℚ) (x : ℚ)
    (hxB : x ≤ (lenientBurst R : ℚ)) :
    _allow R now (some ⟨x, now⟩) =
      if 1 ≤ x then (true, ⟨x - 1, now⟩) else (false, ⟨x, now⟩) := by
  simp only [_allow, Option.getD]
  have hre : ((R : ℚ) / 60) * (now - now) = 0 := by ring
  rw [hre, add_zero, min_eq_right hxB]

/-- `_allow` on a first-ever request: the bucket starts at the burst
cap, which is at least 5, so the request is admitted. -/
theorem _allow_none (R : Nat) (now : ℚ) :
    _allow R now none = (true, ⟨(lenientBurst R : ℚ) - 1, now⟩) := by
  simp only [_allow, Option.getD]
  have hre : ((R : ℚ) / 60) * (now - now) = 0 := by ring
  rw [hre, add_zero, min_self]
  rw [if_pos ?_]
  have h5 : (5 : ℕ) ≤ lenientBurst R := le_max_left 5 _
  have : (5 : ℚ) ≤ (lenientBurst R : ℚ) := by exact_mod_cast h5
  linarith

/-- Per-request trace of the instantaneous-burst experiment: request
`k` (0-based) is admitted exactly when `k < burst`, and the bucket holds
`burst - min n burst` tokens after `n` requests. -/
theorem allowBurstSeq_spec (R : Nat) (now : ℚ) :
    ∀ n, (allowBurstSeq R now n).1
        = (List.range n).map (fun k => decide (k < lenientBurst R)) ∧
      (allowBurstSeq R now n).2 =
        if n = 0 then none
        else some ⟨(lenientBurst R : ℚ) - ((min n (lenientBurst R) : ℕ) : ℚ), now⟩ := by
  have hB5 : (5 : ℕ) ≤ lenientBurst R := le_max_left 5 _
  have hB1 : (1 : ℕ) ≤ lenientBurst R := le_trans (by norm_num) hB5
  intro n
  induction n with
  | zero => simp [allowBurstSeq]
  | succ n ih =>
    obtain ⟨ih1, ih2⟩ := ih
    have hstep : allowBurstSeq R now (n + 1) =
        ((allowBurstSeq R now n).1 ++ [(_allow R now (allowBurstSeq R now n).2).1],
          some (_allow R now (allowBurstSeq R now n).2).2) := rfl
    by_cases hn : n = 0
    · subst hn
      have hprev : (allowBurstSeq R now 0).2 = none := rfl
      rw [hstep, hprev, _allow_none]
      have hm1 : min 1 (lenientBurst R) = 1 := Nat.min_eq_left hB1
      constructor
      · rw [ih1]
        simp only [List.range_zero, List.map_nil, List.nil_append,
          List.range_succ, List.map_append]
        have : (0 : ℕ) < lenientBurst R := hB1
        simp [this]
      · rw [if_neg Nat.one_ne_zero, hm1]
        norm_num
    · have hmle : ((min n (lenientBurst R) : ℕ) : ℚ) ≤ (lenientBurst R : ℚ) := by
        exact_mod_cast Nat.min_le_right n (lenientBurst R)
      have htok : (lenientBurst R : ℚ) - ((min n (lenientBurst R) : ℕ) : ℚ)
          ≤ (lenientBurst R : ℚ) := by
        have hnn : (0 : ℚ) ≤ ((min n (lenientBurst R) : ℕ) : ℚ) := Nat.cast_nonneg _
        linarith
      have hprev : (allowBurstSeq R now n).2 =
          some ⟨(lenientBurst R : ℚ) - ((min n (lenientBurst R) : ℕ) : ℚ), now⟩ := by
        rw [ih2, if_neg hn]
      rw [hstep, hprev, _allow_same_time R now _ htok]
      by_cases hlt : n < lenientBurst R
      · have hm : min n (lenientBurst R) = n := Nat.min_eq_left (le_of_lt hlt)
        have hm1 : min (n + 1) (lenientBurst R) = n + 1 := Nat.min_eq_left hlt
        have hadm : (1 : ℚ) ≤ (lenientBurst R : ℚ) - ((min n (lenientBurst R) : ℕ) : ℚ) := by
          rw [hm]
          have : (n : ℚ) + 1 ≤ (lenientBurst R : ℚ) := by exact_mod_cast hlt
          linarith
        rw [if_pos hadm]
        constructor
        · rw [ih1, List.range_succ, List.map_append]
          simp [hlt]
        · rw [if_neg n.succ_ne_zero, hm, hm1]
          have : ((n + 1 : ℕ) : ℚ) = (n : ℚ) + 1 := by push_cast; ring
          rw [this]
          ring_nf
      · have hm : min n (lenientBurst R) = lenientBurst R :=
          Nat.min_eq_right (le_of_not_lt hlt)
        have hm1 : min (n + 1) (lenientBurst R) = lenientBurst R :=
          Nat.min_eq_right (le_of_lt (Nat.lt_succ_of_le (le_of_not_lt hlt)))
        have hnadm : ¬ (1 : ℚ) ≤ (lenientBurst R : ℚ) - ((min n (lenientBurst R) : ℕ) : ℚ) := by
          rw [hm, sub_self]
          norm_num
        rw [if_neg hnadm]
        constructor
        · rw [ih1, List.range_succ, List.map_append]
          simp [hlt]
        · rw [if_neg n.succ_ne_zero, hm, hm1]

/-- C3 amended: both token buckets admit and consume one token exactly
when the refilled count reaches 1 and reject without consuming
otherwise, updating the refill timestamp either way.  The lenient
variant (`_allow`) refills at `limitPerMin / 60` tokens per second
capped at `max(5, limitPerMin // 2)`; the strict variant
(`check_rate_limit`) ignores its `limit_per_min` argument and refills at
its fixed internal rate of 60 tokens per minute (1 token per second)
capped at 30.  For the lenient variant, burst-many instantaneous
requests from a fresh identity are all admitted and the next one is
rejected, and after waiting `60 / limitPerMin` seconds exactly one
further request is admitted. -/
theorem C3_token_bucket (R limit : Nat) (now : ℚ) (b : Bucket) :
    (((_allow R now (some b)).1 = true ↔
        1 ≤ min ((lenientBurst R : ℕ) : ℚ) (b.tokens + ((R : ℚ) / 60) * (now - b.ts))) ∧
      (_allow R now (some b)).2.tokens =
        (if 1 ≤ min ((lenientBurst R : ℕ) : ℚ) (b.tokens + ((R : ℚ) / 60) * (now - b.ts))
         then min ((lenientBurst R : ℕ) : ℚ) (b.tokens + ((R : ℚ) / 60) * (now - b.ts)) - 1
         else min ((lenientBurst R : ℕ) : ℚ) (b.tokens + ((R : ℚ) / 60) * (now - b.ts))) ∧
      (_allow R now (some b)).2.ts = now) ∧
    (((check_rate_limit limit now (some b)).1 = true ↔
        1 ≤ min (30 : ℚ) (b.tokens + (now - b.ts))) ∧
      (check_rate_limit limit now (some b)).2.tokens =
        (if 1 ≤ min (30 : ℚ) (b.tokens + (now - b.ts))
         then min (30 : ℚ) (b.tokens + (now - b.ts)) - 1
         else min (30 : ℚ) (b.tokens + (now - b.ts))) ∧
      (check_rate_limit limit now (some b)).2.ts = now) ∧
    ((allowBurstSeq R now (lenientBurst R + 1)).1
      = List.replicate (lenientBurst R) true ++ [false]) ∧
    (0 < R →
      (_allow R (now + 60 / (R : ℚ)) (some ⟨0, now⟩)).1 = true ∧
      (_allow R (now + 60 / (R : ℚ))
        (some (_allow R (now + 60 / (R : ℚ)) (some ⟨0, now⟩)).2)).1 = false) := by
  refine ⟨?_, ?_, ?_, ?_⟩
  · simp only [_allow, Option.getD]
    by_cases hx : 1 ≤ min ((lenientBurst R : ℕ) : ℚ) (b.tokens + ((R : ℚ) / 60) * (now - b.ts))
    · rw [if_pos hx, if_pos hx]
      exact ⟨⟨fun _ => hx, fun _ => rfl⟩, rfl, rfl⟩
    · rw [if_neg hx, if_neg hx]
      exact ⟨⟨fun h => absurd h (by simp), fun h => absurd h hx⟩, rfl, rfl⟩
  · simp only [check_rate_limit, Option.getD]
    have hr : (60 : ℚ) * (now - b.ts) / 60 = now - b.ts := by ring
    rw [hr]
    by_cases hx : 1 ≤ min (30 : ℚ) (b.tokens + (now - b.ts))
    · rw [if_neg (not_lt.mpr hx)]
      exact ⟨⟨fun _ => hx, fun _ => rfl⟩, by rw [if_pos hx], rfl⟩
    · rw [if_pos (not_le.mp hx)]
      exact ⟨⟨fun h => absurd h (by simp), fun h => absurd h hx⟩, by rw [if_neg hx], rfl⟩
  · rw [(allowBurstSeq_spec R now (lenientBurst R + 1)).1]
    rw [List.range_succ, List.map_append]
    congr 1
    · refine List.eq_replicate_iff.mpr ⟨by simp, fun x hx => ?_⟩
      obtain ⟨k, hk, hkx⟩ := List.mem_map.mp hx
      rw [← hkx]
      simp [List.mem_range.mp hk]
    · simp
  · intro hR
    have hRQ : (0 : ℚ) < (R : ℚ) := by exact_mod_cast hR
    have h5 : (5 : ℚ) ≤ ((lenientBurst R : ℕ) : ℚ) := by
      exact_mod_cast le_max_left 5 (R / 2)
    have hfirst : _allow R (now + 60 / (R : ℚ)) (some ⟨0, now⟩)
        = (true, ⟨0, now + 60 / (R : ℚ)⟩) := by
      simp only [_allow, Option.getD]
      have hre : (0 : ℚ) + ((R : ℚ) / 60) * ((now + 60 / (R : ℚ)) - now) = 1 := by
        field_simp
        ring
      rw [hre, min_eq_right (by linarith)]
      rw [if_pos le_rfl]
      norm_num
    refine ⟨by rw [hfirst], ?_⟩
    rw [hfirst]
    simp only [_allow, Option.getD]
    have hre : (0 : ℚ) + ((R : ℚ) / 60) *
        ((now + 60 / (R : ℚ)) - (now + 60 / (R : ℚ))) = 0 := by ring
    rw [hre, min_eq_right (by linarith)]
    rw [if_neg (by norm_num)]

/-- Witness for C3 amended at rate 10 per minute (burst 5): the five
instantaneous requests are admitted, the sixth rejected, and after 6
seconds exactly one more passes. -/
theorem C3_token_bucket_witness :
    ((allowBurstSeq 10 0 (lenientBurst 10 + 1)).1
      = List.replicate (lenientBurst 10) true ++ [false]) ∧
    (_allow 10 ((0 : ℚ) + 60 / (10 : ℚ)) (some ⟨0, 0⟩)).1 = true ∧
    (_allow 10 ((0 : ℚ) + 60 / (10 : ℚ))
      (some (_allow 10 ((0 : ℚ) + 60 / (10 : ℚ)) (some ⟨0, 0⟩)).2)).1 = false :=
  ⟨(C3_token_bucket 10 60 0 ⟨0, 0⟩).2.2.1,
   ((C3_token_bucket 10 60 0 ⟨0, 0⟩).2.2.2 (by norm_num)).1,
   ((C3_token_bucket 10 60 0 ⟨0, 0⟩).2.2.2 (by norm_num)).2⟩

/-! ### Lemmas about the scanning predicates -/

theorem nsb_tail (t a : Char) (cs : List Char) (h : nsb t (a :: cs) = true) :
    nsb t cs = true := by
  cases cs with
  | nil => rfl
  | cons b cs =>
    simp only [nsb, Bool.and_eq_true] at h
    exact h.2

theorem nsb_cons (t c : Char) (cs : List Char) (hc : c ≠ ' ')
    (h : nsb t cs = true) : nsb t (c :: cs) = true := by
  cases cs with
  | nil => rfl
  | cons b cs =>
    simp only [nsb, Bool.and_eq_true]
    refine ⟨?_, h⟩
    simp [hc]

theorem nsb_cons_space (t : Char) (cs : List Char) (hh : cs.head? ≠ some t)
    (h : nsb t cs = true) : nsb t (' ' :: cs) = true := by
  cases cs with
  | nil => rfl
  | cons b cs =>
    simp only [nsb, Bool.and_eq_true]
    refine ⟨?_, h⟩
    simp only [List.head?] at hh
    simp only [Bool.not_eq_true', Bool.and_eq_false_iff]
    right
    simp only [decide_eq_false_iff_not]
    intro hb
    exact hh (by rw [hb])

theorem nsb_append_right (t : Char) (A B : List Char)
    (h : nsb t (A ++ B) = true) : nsb t B = true := by
  induction A with
  | nil => exact h
  | cons a A ih => exact ih (nsb_tail t a _ h)

theorem nsb_append_nonws (t : Char) (A R : List Char)
    (hA : ∀ c ∈ A, isWs c = false) (hR : nsb t R = true) :
    nsb t (A ++ R) = true := by
  induction A with
  | nil => exact hR
  | cons a A ih =>
    have ha : a ≠ ' ' := by
      intro he
      have := hA a (by simp)
      rw [he] at this
      simp [isWs] at this
    exact nsb_cons t a _ ha (ih fun c hc => hA c (by simp [hc]))

theorem nsb_no_space (t : Char) (w : List Char)
    (hw : ∀ c ∈ w, isWs c = false) : nsb t w = true := by
  have := nsb_append_nonws t w [] hw rfl
  rwa [List.append_nil] at this

theorem onlySpace_sub (l m : List Char) (hsub : ∀ c ∈ m, c ∈ l)
    (h : onlySpace l = true) : onlySpace m = true := by
  rw [onlySpace, List.all_eq_true]
  intro c hc
  exact (List.all_eq_true.mp h) c (hsub c hc)

theorem onlySpace_mem (l : List Char) (h : onlySpace l = true) (c : Char)
    (hc : c ∈ l) (hws : isWs c = true) : c = ' ' := by
  have := (List.all_eq_true.mp h) c hc
  simp only [Bool.or_eq_true, decide_eq_true_eq, Bool.not_eq_true'] at this
  rcases this with h1 | h1
  · exact h1
  · rw [h1] at hws
    cases hws

theorem headNotWs_append_left (X Y : List Char) (hX : X ≠ []) :
    headNotWs (X ++ Y) = headNotWs X := by
  cases X with
  | nil => exact absurd rfl hX
  | cons c cs => rfl

theorem lastNotWs_nil : lastNotWs [] = true := rfl

theorem lastNotWs_cons (c : Char) (X : List Char) (hX : X ≠ []) :
    lastNotWs (c :: X) = lastNotWs X := by
  rw [lastNotWs, lastNotWs, List.reverse_cons]
  exact headNotWs_append_left X.reverse [c] (by simpa using hX)

theorem lastNotWs_append (X Y : List Char) (hY : Y ≠ []) :
    lastNotWs (X ++ Y) = lastNotWs Y := by
  show headNotWs (X ++ Y).reverse = headNotWs Y.reverse
  rw [List.reverse_append]
  exact headNotWs_append_left Y.reverse X.reverse (by simpa using hY)

theorem lastNotWs_mem (l : List Char) (hw : ∀ c ∈ l, isWs c = false) :
    lastNotWs l = true := by
  rw [lastNotWs]
  cases hr : l.reverse with
  | nil => rfl
  | cons c cs =>
    have hc : c ∈ l := by
      have : c ∈ l.reverse := by rw [hr]; simp
      simpa using this
    simp only [headNotWs]
    rw [hw c hc]
    rfl

theorem headNotWs_mem (l : List Char) (hw : ∀ c ∈ l, isWs c = false) :
    headNotWs l = true := by
  cases l with
  | nil => rfl
  | cons c cs =>
    simp only [headNotWs]
    rw [hw c (by simp)]
    rfl

/-! ### Lemmas about the citation scanner -/

theorem dtb_append (X Y : List Char) (h : dtb X = true) :
    dtb (X ++ Y) = true := by
  induction X with
  | nil => cases h
  | cons c cs ih =>
    simp only [dtb] at h ⊢
    by_cases hc : c = ']'
    · simp [hc]
    · rw [if_neg hc] at h ⊢
      by_cases hd : c.isDigit
      · rw [if_pos hd] at h ⊢
        exact ih h
      · rw [if_neg hd] at h
        cases h

theorem dtb_split (X Y : List Char) (h : dtb (X ++ ' ' :: Y) = true) :
    dtb X = true := by
  induction X with
  | nil =>
    rw [List.nil_append, show dtb (' ' :: Y) = false from rfl] at h
    cases h
  | cons c cs ih =>
    simp only [dtb] at h ⊢
    by_cases hc : c = ']'
    · simp [hc]
    · rw [if_neg hc] at h ⊢
      by_cases hd : c.isDigit
      · rw [if_pos hd] at h ⊢
        exact ih h
      · rw [if_neg hd] at h
        cases h

theorem hasCite_cons (c : Char) (cs : List Char) (h : hasCite cs = true) :
    hasCite (c :: cs) = true := by
  simp only [hasCite, Bool.or_eq_true]
  exact Or.inr h

theorem hasCiteAt_hasCite (l : List Char) (h : hasCiteAt l = true) :
    hasCite l = true := by
  cases l with
  | nil => cases h
  | cons c cs =>
    simp only [hasCite, Bool.or_eq_true]
    exact Or.inl h

theorem dtb_cons_digit (c : Char) (cs : List Char) (hd : c.isDigit = true)
    (hc : c ≠ ']') : dtb (c :: cs) = dtb cs := by
  simp only [dtb, if_neg hc, if_pos hd]

theorem hasCiteAt_append (X Y : List Char) (h : hasCiteAt X = true) :
    hasCiteAt (X ++ Y) = true := by
  match X with
  | [] => cases h
  | [a] => cases h
  | a :: c :: cs =>
    simp only [hasCiteAt, Bool.and_eq_true] at h
    show hasCiteAt (a :: c :: (cs ++ Y)) = true
    simp only [hasCiteAt, Bool.and_eq_true]
    exact ⟨h.1, by
      have := dtb_append (c :: cs) Y h.2
      simpa using this⟩

theorem hasCite_append_left (X Y : List Char) (h : hasCite X = true) :
    hasCite (X ++ Y) = true := by
  induction X with
  | nil => cases h
  | cons c cs ih =>
    simp only [hasCite, Bool.or_eq_true] at h
    rcases h with h | h
    · exact hasCiteAt_hasCite _ (hasCiteAt_append (c :: cs) Y h)
    · exact hasCite_cons c _ (by
        have := ih h
        simpa using this)

theorem hasCiteAt_split (X Y : List Char) (h : hasCiteAt (X ++ ' ' :: Y) = true) :
    hasCiteAt X = true := by
  match X with
  | [] =>
    simp only [List.nil_append] at h
    cases Y with
    | nil =>
      simp only [hasCiteAt] at h
      cases h
    | cons d ds =>
      simp only [hasCiteAt, Bool.and_eq_true] at h
      obtain ⟨⟨h1, _⟩, _⟩ := h
      simp at h1
  | [a] =>
    simp only [List.cons_append, List.nil_append] at h
    simp only [hasCiteAt, Bool.and_eq_true] at h
    obtain ⟨⟨_, h2⟩, _⟩ := h
    have : (' ' : Char).isDigit = false := by decide
    rw [this] at h2
    cases h2
  | a :: c :: cs =>
    simp only [List.cons_append] at h
    simp only [hasCiteAt, Bool.and_eq_true] at h ⊢
    exact ⟨h.1, dtb_split (c :: cs) Y (by simpa using h.2)⟩

theorem hasCite_split (X Y : List Char)
    (h : hasCite (X ++ ' ' :: Y) = true) :
    hasCite X = true ∨ hasCite Y = true := by
  induction X with
  | nil =>
    right
    simp only [List.nil_append, hasCite, Bool.or_eq_true] at h
    rcases h with h | h
    · cases Y with
      | nil => cases h
      | cons d ds =>
        simp only [hasCiteAt, Bool.and_eq_true] at h
        obtain ⟨⟨h1, _⟩, _⟩ := h
        simp at h1
    · exact h
  | cons c cs ih =>
    simp only [List.cons_append, hasCite, Bool.or_eq_true] at h
    rcases h with h | h
    · left
      exact hasCiteAt_hasCite _ (hasCiteAt_split (c :: cs) Y (by simpa using h))
    · rcases ih h with h1 | h1
      · exact Or.inl (hasCite_cons c cs h1)
      · exact Or.inr h1

theorem hasCite_dropWhile (p : Char → Bool) (l : List Char)
    (h : hasCite (l.dropWhile p) = true) : hasCite l = true := by
  induction l with
  | nil => simpa using h
  | cons c cs ih =>
    rw [List.dropWhile_cons] at h
    by_cases hp : p c
    · rw [if_pos hp] at h
      exact hasCite_cons c cs (ih h)
    · rw [if_neg hp] at h
      exact h

theorem dtb_of_digits (T Z : List Char) (hT : ∀ c ∈ T, c.isDigit = true) :
    dtb (T ++ ']' :: Z) = true := by
  induction T with
  | nil => rfl
  | cons c cs ih =>
    simp only [List.cons_append, dtb]
    by_cases hc : c = ']'
    · rw [if_pos hc]
    · rw [if_neg hc, if_pos (hT c (by simp))]
      exact ih fun d hd => hT d (by simp [hd])

theorem matchCiteAt_some_hasCite (l r : List Char)
    (h : matchCiteAt l = some r) : hasCite l = true := by
  apply hasCite_dropWhile isWs
  unfold matchCiteAt at h
  split at h
  case _ a rest heq =>
    rw [heq]
    by_cases ha : a = '['
    · rw [if_pos ha] at h
      split at h
      case _ => cases h
      case _ d ds b rest2 ht hdr =>
        by_cases hb : b = ']'
        · subst ha hb
          apply hasCiteAt_hasCite
          have hrest : rest = (d :: ds) ++ ']' :: rest2 := by
            rw [← ht, ← hdr, List.takeWhile_append_dropWhile]
          rw [hrest]
          show hasCiteAt ('[' :: d :: (ds ++ ']' :: rest2)) = true
          simp only [hasCiteAt, Bool.and_eq_true]
          have hdig : ∀ c ∈ d :: ds, c.isDigit = true := by
            intro c hc
            exact List.mem_takeWhile_imp (ht ▸ hc)
          refine ⟨⟨by simp, hdig d (by simp)⟩, ?_⟩
          have := dtb_of_digits (d :: ds) rest2 hdig
          simpa using this
        · rw [if_neg hb] at h
          cases h
      case _ => cases h
    · rw [if_neg ha] at h
      cases h
  case _ => cases h

theorem citeSubL_nil : citeSubL [] = [] := rfl

theorem citeSubL_cons_nomatch (c : Char) (cs : List Char)
    (h : matchCiteAt (c :: cs) = none) :
    citeSubL (c :: cs) = c :: citeSubL cs := by
  show citeGo (cs.length + 1) (c :: cs) = c :: citeGo cs.length cs
  simp only [citeGo, h]

theorem matchCiteAt_none_of_nocite (l : List Char) (h : hasCite l = false) :
    matchCiteAt l = none := by
  cases hm : matchCiteAt l with
  | none => rfl
  | some r =>
    have := matchCiteAt_some_hasCite l r hm
    rw [this] at h
    cases h

theorem citeSubL_id (l : List Char) (h : hasCite l = false) :
    citeSubL l = l := by
  induction l with
  | nil => rfl
  | cons c cs ih =>
    have hcs : hasCite cs = false := by
      by_contra hc
      rw [Bool.not_eq_false] at hc
      rw [hasCite_cons c cs hc] at h
      cases h
    rw [citeSubL_cons_nomatch c cs (matchCiteAt_none_of_nocite _ h), ih hcs]

/-! ### Lemmas about splitting into words and joining -/

theorem wordsGo_succ : ∀ (f : Nat) (l : List Char), l.length ≤ f →
    wordsGo f l = wordsGo (f + 1) l := by
  intro f
  induction f with
  | zero =>
    intro l hl
    have : l = [] := List.length_eq_zero.mp (Nat.le_zero.mp hl)
    subst this
    rfl
  | succ f ih =>
    intro l hl
    cases l with
    | nil => rfl
    | cons c cs =>
      simp only [wordsGo]
      by_cases hc : isWs c
      · rw [if_pos hc, if_pos hc]
        exact ih cs (by simpa using hl)
      · rw [if_neg hc, if_neg hc]
        congr 1
        exact ih _ (le_trans ((List.dropWhile_sublist _).length_le) (by simpa using hl))

theorem wordsGo_eq_wordsL (f : Nat) (l : List Char) (h : l.length ≤ f) :
    wordsGo f l = wordsL l := by
  have key : ∀ k, wordsGo (l.length + k) l = wordsL l := by
    intro k
    induction k with
    | zero => rfl
    | succ k ih =>
      rw [show l.length + (k + 1) = (l.length + k) + 1 from rfl,
        ← wordsGo_succ (l.length + k) l (by omega), ih]
  have : f = l.length + (f - l.length) := by omega
  rw [this, key]

theorem wordsL_nil : wordsL [] = [] := rfl

theorem wordsL_ws (c : Char) (cs : List Char) (h : isWs c = true) :
    wordsL (c :: cs) = wordsL cs := by
  show wordsGo (cs.length + 1) (c :: cs) = wordsL cs
  simp only [wordsGo]
  rw [if_pos h]
  rfl

theorem wordsL_word (c : Char) (cs : List Char) (h : isWs c = false) :
    wordsL (c :: cs) = (c :: cs.takeWhile (fun x => !isWs x)) ::
      wordsL (cs.dropWhile (fun x => !isWs x)) := by
  show wordsGo (cs.length + 1) (c :: cs) = _
  simp only [wordsGo]
  rw [if_neg (by simp [h])]
  congr 1
  exact wordsGo_eq_wordsL cs.length _ (List.dropWhile_sublist _).length_le

theorem wordsL_good_aux : ∀ (n : Nat) (l : List Char), l.length ≤ n →
    ∀ w ∈ wordsL l, w ≠ [] ∧ ∀ c ∈ w, isWs c = false := by
  intro n
  induction n with
  | zero =>
    intro l hl
    have : l = [] := List.length_eq_zero.mp (Nat.le_zero.mp hl)
    subst this
    intro w hw
    cases hw
  | succ n ih =>
    intro l hl w hw
    cases l with
    | nil => cases hw
    | cons c cs =>
      by_cases hc : isWs c
      · rw [wordsL_ws c cs hc] at hw
        exact ih cs (by simpa using hl) w hw
      · rw [wordsL_word c cs (by simpa using hc)] at hw
        rcases List.mem_cons.mp hw with hw | hw
        · subst hw
          refine ⟨by simp, fun d hd => ?_⟩
          rcases List.mem_cons.mp hd with hd | hd
          · subst hd
            simpa using hc
          · have := List.mem_takeWhile_imp hd
            simpa using this
        · exact ih _ (le_trans (List.dropWhile_sublist _).length_le (by simpa using hl)) w hw

theorem wordsL_good (l : List Char) :
    ∀ w ∈ wordsL l, w ≠ [] ∧ ∀ c ∈ w, isWs c = false :=
  wordsL_good_aux l.length l le_rfl

theorem wordsL_cite_aux : ∀ (n : Nat) (l : List Char), l.length ≤ n →
    ∀ w ∈ wordsL l, hasCite w = true → hasCite l = true := by
  intro n
  induction n with
  | zero =>
    intro l hl
    have : l = [] := List.length_eq_zero.mp (Nat.le_zero.mp hl)
    subst this
    intro w hw
    cases hw
  | succ n ih =>
    intro l hl w hw hcw
    cases l with
    | nil => cases hw
    | cons c cs =>
      by_cases hc : isWs c
      · rw [wordsL_ws c cs hc] at hw
        exact hasCite_cons c cs (ih cs (by simpa using hl) w hw hcw)
      · rw [wordsL_word c cs (by simpa using hc)] at hw
        rcases List.mem_cons.mp hw with hw | hw
        · subst hw
          have h1 := hasCite_append_left _ (cs.dropWhile (fun x => !isWs x)) hcw
          rw [List.cons_append, List.takeWhile_append_dropWhile] at h1
          exact h1
        · have h1 := ih _ (le_trans (List.dropWhile_sublist _).length_le (by simpa using hl))
            w hw hcw
          exact hasCite_cons c cs (hasCite_dropWhile _ cs h1)

theorem wordsL_cite (l : List Char) :
    ∀ w ∈ wordsL l, hasCite w = true → hasCite l = true :=
  wordsL_cite_aux l.length l le_rfl

theorem joinWords_cons (w : List Char) (ws : List (List Char)) (h : ws ≠ []) :
    joinWords (w :: ws) = w ++ ' ' :: joinWords ws := by
  cases ws with
  | nil => exact absurd rfl h
  | cons w2 ws2 => rfl

theorem joinWords_ne_nil (ws : List (List Char)) (h : ws ≠ [])
    (hw : ∀ w ∈ ws, w ≠ []) : joinWords ws ≠ [] := by
  cases ws with
  | nil => exact absurd rfl h
  | cons w ws2 =>
    cases ws2 with
    | nil => exact hw w (by simp)
    | cons w2 ws3 =>
      rw [joinWords_cons w _ (by simp)]
      intro hcon
      have := congrArg List.length hcon
      simp at this

theorem headNotWs_no_space_head (J : List Char) (h : headNotWs J = true) :
    J.head? ≠ some ' ' := by
  cases J with
  | nil => simp
  | cons c cs =>
    simp only [List.head?, ne_eq, Option.some.injEq]
    intro hc
    subst hc
    simp only [headNotWs] at h
    rw [show isWs ' ' = true from rfl] at h
    cases h

theorem joinWords_facts (ws : List (List Char))
    (hw : ∀ w ∈ ws, w ≠ [] ∧ ∀ c ∈ w, isWs c = false) :
    onlySpace (joinWords ws) = true ∧ nsb ' ' (joinWords ws) = true ∧
    headNotWs (joinWords ws) = true ∧ lastNotWs (joinWords ws) = true := by
  induction ws with
  | nil => exact ⟨rfl, rfl, rfl, rfl⟩
  | cons w ws ih =>
    cases ws with
    | nil =>
      obtain ⟨hne, hnw⟩ := hw w (by simp)
      show onlySpace w = true ∧ nsb ' ' w = true ∧ headNotWs w = true ∧ lastNotWs w = true
      refine ⟨?_, nsb_no_space ' ' w hnw, headNotWs_mem w hnw, lastNotWs_mem w hnw⟩
      rw [onlySpace, List.all_eq_true]
      intro c hc
      simp [hnw c hc]
    | cons w2 ws2 =>
      have hJ := ih (fun v hv => hw v (by simp [hv]))
      obtain ⟨hne, hnw⟩ := hw w (by simp)
      have hJne : joinWords (w2 :: ws2) ≠ [] :=
        joinWords_ne_nil _ (by simp) (fun v hv => (hw v (by simp [hv])).1)
      rw [joinWords_cons w _ (by simp)]
      refine ⟨?_, ?_, ?_, ?_⟩
      · rw [onlySpace, List.all_eq_true]
        intro c hc
        rcases List.mem_append.mp hc with hc | hc
        · simp [hnw c hc]
        · rcases List.mem_cons.mp hc with hc | hc
          · simp [hc]
          · exact (List.all_eq_true.mp hJ.1) c hc
      · apply nsb_append_nonws ' ' w _ hnw
        exact nsb_cons_space ' ' _ (headNotWs_no_space_head _ hJ.2.2.1) hJ.2.1
      · rw [headNotWs_append_left w _ hne]
        exact headNotWs_mem w hnw
      · rw [lastNotWs_append w _ (by simp), lastNotWs_cons ' ' _ hJne]
        exact hJ.2.2.2

theorem joinWords_cite (ws : List (List Char))
    (h : hasCite (joinWords ws) = true) : ∃ w ∈ ws, hasCite w = true := by
  induction ws with
  | nil => cases h
  | cons w ws ih =>
    cases ws with
    | nil => exact ⟨w, by simp, h⟩
    | cons w2 ws2 =>
      rw [joinWords_cons w _ (by simp)] at h
      rcases hasCite_split w _ h with h1 | h1
      · exact ⟨w, by simp, h1⟩
      · obtain ⟨v, hv, hcv⟩ := ih h1
        exact ⟨v, by simp [hv], hcv⟩

theorem normalizeL_facts (l : List Char) :
    onlySpace (normalizeL l) = true ∧ nsb ' ' (normalizeL l) = true ∧
    headNotWs (normalizeL l) = true ∧ lastNotWs (normalizeL l) = true :=
  joinWords_facts _ (wordsL_good l)

theorem normalizeL_nocite (l : List Char) (h : hasCite l = false) :
    hasCite (normalizeL l) = false := by
  by_contra hc
  rw [Bool.not_eq_false] at hc
  obtain ⟨w, hw, hcw⟩ := joinWords_cite _ hc
  rw [wordsL_cite l w hw hcw] at h
  cases h

theorem dropWhile_head_false {α : Type} (p : α → Bool) (l : List α) (d : α)
    (D : List α) (h : l.dropWhile p = d :: D) : p d = false := by
  induction l with
  | nil => cases h
  | cons c cs ih =>
    rw [List.dropWhile_cons] at h
    by_cases hp : p c
    · rw [if_pos hp] at h
      exact ih h
    · rw [if_neg hp] at h
      injection h with h1 h2
      subst h1
      simpa using hp

theorem wordsL_ne_nil (l : List Char) (hl : l ≠ []) (hh : headNotWs l = true) :
    wordsL l ≠ [] := by
  cases l with
  | nil => exact absurd rfl hl
  | cons c cs =>
    have hc : isWs c = false := by
      simp only [headNotWs] at hh
      simpa using hh
    rw [wordsL_word c cs hc]
    simp

theorem normalizeL_id_aux : ∀ (n : Nat) (l : List Char), l.length ≤ n →
    onlySpace l = true → nsb ' ' l = true → headNotWs l = true →
    lastNotWs l = true → normalizeL l = l := by
  intro n
  induction n with
  | zero =>
    intro l hl _ _ _ _
    have : l = [] := List.length_eq_zero.mp (Nat.le_zero.mp hl)
    subst this
    rfl
  | succ n ih =>
    intro l hl h1 h2 h3 h4
    cases l with
    | nil => rfl
    | cons c cs =>
      have hc : isWs c = false := by
        simp only [headNotWs] at h3
        simpa using h3
      rw [normalizeL, wordsL_word c cs hc]
      have hcs : cs = cs.takeWhile (fun x => !isWs x) ++ cs.dropWhile (fun x => !isWs x) :=
        (List.takeWhile_append_dropWhile ..).symm
      have hTnw : ∀ x ∈ cs.takeWhile (fun x => !isWs x), isWs x = false := by
        intro x hx
        have := List.mem_takeWhile_imp hx
        simpa using this
      cases hDc : cs.dropWhile (fun x => !isWs x) with
      | nil =>
        rw [hDc] at hcs
        rw [List.append_nil] at hcs
        rw [wordsL_nil]
        show c :: cs.takeWhile (fun x => !isWs x) = c :: cs
        rw [← hcs]
      | cons d D' =>
        rw [hDc] at hcs
        have hdws : isWs d = true := by
          have := dropWhile_head_false (fun x => !isWs x) cs d D' hDc
          simpa using this
        have hdmem : d ∈ c :: cs := by
          have hd1 : d ∈ cs.dropWhile (fun x => !isWs x) := by rw [hDc]; simp
          have : d ∈ cs := (List.dropWhile_sublist _).subset hd1
          simp [this]
        have hdsp : d = ' ' := onlySpace_mem _ h1 d hdmem hdws
        subst hdsp
        have hD'ne : D' ≠ [] := by
          intro hcon
          subst hcon
          have hl4 : lastNotWs (c :: cs) = false := by
            conv_lhs => rw [hcs]
            rw [lastNotWs_cons c _ (by simp), lastNotWs_append _ [' '] (by simp)]
            rfl
          rw [hl4] at h4
          cases h4
        have hsplit : (c :: cs) = (c :: cs.takeWhile (fun x => !isWs x)) ++ ' ' :: D' := by
          conv_lhs => rw [hcs]
          rw [List.cons_append]
        have h2D : nsb ' ' (' ' :: D') = true := by
          have := nsb_append_right ' ' (c :: cs.takeWhile (fun x => !isWs x)) (' ' :: D') (by rw [← hsplit]; exact h2)
          exact this
        have hheadD' : headNotWs D' = true := by
          cases hD'c : D' with
          | nil => rfl
          | cons e D'' =>
            have he : e ≠ ' ' := by
              rw [hD'c] at h2D
              simp only [nsb, Bool.and_eq_true] at h2D
              have h21 := h2D.1
              simp at h21
              exact h21
            have hemem : e ∈ c :: cs := by
              rw [hsplit, hD'c]
              simp
            simp only [headNotWs]
            by_cases hews : isWs e = true
            · exact absurd (onlySpace_mem _ h1 e hemem hews) he
            · simpa using hews
        have hlenD' : D'.length ≤ n := by
          have h5 : (cs.dropWhile (fun x => !isWs x)).length ≤ cs.length :=
            (List.dropWhile_sublist _).length_le
          rw [hDc] at h5
          simp only [List.length_cons] at h5 hl
          omega
        have honlyD' : onlySpace D' = true := by
          apply onlySpace_sub (c :: cs) D' _ h1
          intro x hx
          rw [hsplit]
          simp [hx]
        have hnsbD' : nsb ' ' D' = true := nsb_tail ' ' ' ' D' h2D
        have hlastD' : lastNotWs D' = true := by
          have := lastNotWs_append ((c :: cs.takeWhile (fun x => !isWs x)) ++ [' ']) D' hD'ne
          rw [show ((c :: cs.takeWhile (fun x => !isWs x)) ++ [' ']) ++ D' = (c :: cs.takeWhile (fun x => !isWs x)) ++ ' ' :: D' by simp] at this
          rw [← hsplit] at this
          rw [← this]
          exact h4
        have hIH : normalizeL D' = D' := ih D' hlenD' honlyD' hnsbD' hheadD' hlastD'
        rw [wordsL_ws ' ' D' rfl]
        have hwne : wordsL D' ≠ [] := wordsL_ne_nil D' hD'ne hheadD'
        rw [joinWords_cons _ _ hwne]
        show (c :: cs.takeWhile (fun x => !isWs x)) ++ ' ' :: joinWords (wordsL D') = c :: cs
        rw [show joinWords (wordsL D') = D' from hIH, ← hsplit]

theorem normalizeL_id (l : List Char) (h1 : onlySpace l = true)
    (h2 : nsb ' ' l = true) (h3 : headNotWs l = true)
    (h4 : lastNotWs l = true) : normalizeL l = l :=
  normalizeL_id_aux l.length l le_rfl h1 h2 h3 h4

/-! ### Lemmas about the punctuation replaces -/

theorem rp_nil (p : Char) : replacePair p [] = [] := rfl

theorem rp_single (p c : Char) : replacePair p [c] = [c] := rfl

theorem rp_cons2 (p a b : Char) (cs : List Char) : replacePair p (a :: b :: cs) =
    if a = ' ' && b = p then b :: replacePair p cs
    else a :: replacePair p (b :: cs) := rfl

theorem rp_short (p : Char) (l : List Char)
    (hl : ∀ (a b : Char) (cs : List Char), l = a :: b :: cs → False) :
    replacePair p l = l := by
  match l with
  | [] => rfl
  | [c] => rfl
  | a :: b :: cs => exact absurd rfl (fun h => hl a b cs h)

theorem rp_eq_of_nsb (p : Char) (l : List Char) (h : nsb p l = true) :
    replacePair p l = l := by
  induction l using replacePair.induct p with
  | case1 a b cs hcond ih =>
    exfalso
    simp only [nsb, Bool.and_eq_true] at h
    rw [hcond] at h
    simpa using h.1
  | case2 a b cs hcond ih =>
    rw [rp_cons2, if_neg (by simp [hcond])]
    rw [ih (nsb_tail p a _ h)]
  | case3 l hl => exact rp_short p l (by intro a b cs hh; exact hl a b cs hh)

theorem rp_ne_nil (p : Char) (l : List Char) (h : l ≠ []) :
    replacePair p l ≠ [] := by
  match l with
  | [c] => simp [rp_single]
  | a :: b :: cs =>
    rw [rp_cons2]
    by_cases hc : a = ' ' && b = p
    · rw [if_pos hc]
      simp
    · rw [if_neg hc]
      simp

theorem rp_mem (p : Char) (l : List Char) (c : Char)
    (h : c ∈ replacePair p l) : c ∈ l := by
  induction l using replacePair.induct p with
  | case1 a b cs hcond ih =>
    rw [rp_cons2, if_pos hcond] at h
    rcases List.mem_cons.mp h with h | h
    · simp [h]
    · have := ih h
      simp [this]
  | case2 a b cs hcond ih =>
    rw [rp_cons2, if_neg hcond] at h
    rcases List.mem_cons.mp h with h | h
    · simp [h]
    · have := ih h
      simp only [List.mem_cons] at this ⊢
      tauto
  | case3 l hl =>
    rwa [rp_short p l (fun a b cs hh => hl a b cs hh)] at h

theorem rp_onlySpace (p : Char) (l : List Char) (h : onlySpace l = true) :
    onlySpace (replacePair p l) = true := by
  rw [onlySpace, List.all_eq_true]
  intro c hc
  exact List.all_eq_true.mp h c (rp_mem p l c hc)

theorem rp_headNotWs (p : Char) (l : List Char)
    (h : headNotWs l = true) : headNotWs (replacePair p l) = true := by
  match l with
  | [] => rfl
  | [c] => rwa [rp_single]
  | a :: b :: cs =>
    rw [rp_cons2]
    by_cases hc : a = ' ' && b = p
    · exfalso
      simp only [Bool.and_eq_true, decide_eq_true_eq] at hc
      simp only [headNotWs] at h
      rw [hc.1] at h
      rw [show isWs ' ' = true from rfl] at h
      cases h
    · rw [if_neg hc]
      exact h

/-- The head of `replacePair p (b :: cs)`: the original head `b`, unless
the list starts with the replaced pattern, in which case it is `p`. -/
theorem rp_head_cases (p b : Char) (cs : List Char) :
    (replacePair p (b :: cs)).head? = some b ∨
    ((replacePair p (b :: cs)).head? = some p ∧ b = ' ' ∧ cs.head? = some p) := by
  match cs with
  | [] =>
    left
    rw [rp_single]
    rfl
  | c2 :: cs2 =>
    rw [rp_cons2]
    by_cases hc : b = ' ' && c2 = p
    · right
      rw [if_pos hc]
      simp only [Bool.and_eq_true, decide_eq_true_eq] at hc
      exact ⟨by rw [hc.2]; rfl, hc.1, by rw [hc.2]; rfl⟩
    · left
      rw [if_neg hc]
      rfl

theorem rp_lastNotWs (p : Char) (l : List Char) (hp : isWs p = false)
    (h : lastNotWs l = true) : lastNotWs (replacePair p l) = true := by
  induction l using replacePair.induct p with
  | case1 a b cs hcond ih =>
    rw [rp_cons2, if_pos hcond]
    simp only [Bool.and_eq_true, decide_eq_true_eq] at hcond
    cases hcs : cs with
    | nil =>
      rw [rp_nil]
      rw [lastNotWs, List.reverse_cons, List.reverse_nil, List.nil_append]
      simp only [headNotWs]
      rw [hcond.2, hp]
      rfl
    | cons d ds =>
      rw [← hcs]
      have hcsne : cs ≠ [] := by rw [hcs]; simp
      have hlast : lastNotWs cs = true := by
        have e1 : lastNotWs (a :: b :: cs) = lastNotWs (b :: cs) :=
          lastNotWs_cons a _ (by simp)
        have e2 : lastNotWs (b :: cs) = lastNotWs cs := lastNotWs_cons b _ hcsne
        rw [e1, e2] at h
        exact h
      have hrpne : replacePair p cs ≠ [] := rp_ne_nil p cs hcsne
      rw [lastNotWs_cons b _ hrpne]
      exact ih hlast
  | case2 a b cs hcond ih =>
    rw [rp_cons2, if_neg hcond]
    have hrpne : replacePair p (b :: cs) ≠ [] := rp_ne_nil p _ (by simp)
    rw [lastNotWs_cons a _ hrpne]
    exact ih (by rw [lastNotWs_cons a _ (by simp)] at h; exact h)
  | case3 l hl =>
    rwa [rp_short p l (fun a b cs hh => hl a b cs hh)]

theorem rp_nsb_space (p : Char) (l : List Char) (hp : p ≠ ' ')
    (h : nsb ' ' l = true) : nsb ' ' (replacePair p l) = true := by
  induction l using replacePair.induct p with
  | case1 a b cs hcond ih =>
    rw [rp_cons2, if_pos hcond]
    have hb : b ≠ ' ' := by
      simp only [Bool.and_eq_true, decide_eq_true_eq] at hcond
      rw [hcond.2]
      exact hp
    exact nsb_cons ' ' b _ hb (ih (nsb_tail ' ' b cs (nsb_tail ' ' a _ h)))
  | case2 a b cs hcond ih =>
    rw [rp_cons2, if_neg hcond]
    have hbcs : nsb ' ' (b :: cs) = true := nsb_tail ' ' a _ h
    by_cases ha : a = ' '
    · subst ha
      apply nsb_cons_space ' ' _ _ (ih hbcs)
      have hb2 : b ≠ ' ' := by
        simp only [nsb, Bool.and_eq_true] at h
        have h1 := h.1
        simp at h1
        exact h1
      rcases rp_head_cases p b cs with hh | hh
      · rw [hh]
        simp only [ne_eq, Option.some.injEq]
        exact hb2
      · rw [hh.1]
        simp only [ne_eq, Option.some.injEq]
        exact hp
    · exact nsb_cons ' ' a _ ha (ih hbcs)
  | case3 l hl =>
    rwa [rp_short p l (fun a b cs hh => hl a b cs hh)]

theorem rp_nsb_self (p : Char) (l : List Char) (hp : p ≠ ' ')
    (h : nsb ' ' l = true) : nsb p (replacePair p l) = true := by
  induction l using replacePair.induct p with
  | case1 a b cs hcond ih =>
    rw [rp_cons2, if_pos hcond]
    simp only [Bool.and_eq_true, decide_eq_true_eq] at hcond
    have hb : b ≠ ' ' := by
      rw [hcond.2]
      exact hp
    exact nsb_cons p b _ hb (ih (nsb_tail ' ' b cs (nsb_tail ' ' a _ h)))
  | case2 a b cs hcond ih =>
    rw [rp_cons2, if_neg hcond]
    simp only [Bool.and_eq_true, decide_eq_true_eq] at hcond
    have hbcs : nsb ' ' (b :: cs) = true := nsb_tail ' ' a _ h
    by_cases ha : a = ' '
    · subst ha
      apply nsb_cons_space p _ _ (ih hbcs)
      have hbp : b ≠ p := fun hb => hcond ⟨rfl, hb⟩
      rcases rp_head_cases p b cs with hh | hh
      · rw [hh]
        simp only [ne_eq, Option.some.injEq]
        exact hbp
      · exfalso
        have hb2 : b ≠ ' ' := by
          simp only [nsb, Bool.and_eq_true] at h
          have h1 := h.1
          simp at h1
          exact h1
        exact hb2 hh.2.1
    · exact nsb_cons p a _ ha (ih hbcs)
  | case3 l hl =>
    rw [rp_short p l (fun a b cs hh => hl a b cs hh)]
    match l, hl with
    | [], _ => rfl
    | [c], _ => rfl
    | a :: b :: cs, hl => exact ((hl a b cs rfl).elim)

theorem rp_nsb_other (p q : Char) (l : List Char) (hp : p ≠ ' ')
    (hq : q ≠ p) (hqs : nsb q l = true) (hsp : nsb ' ' l = true) :
    nsb q (replacePair p l) = true := by
  induction l using replacePair.induct p with
  | case1 a b cs hcond ih =>
    rw [rp_cons2, if_pos hcond]
    simp only [Bool.and_eq_true, decide_eq_true_eq] at hcond
    have hb : b ≠ ' ' := by
      rw [hcond.2]
      exact hp
    exact nsb_cons q b _ hb
      (ih (nsb_tail q b cs (nsb_tail q a _ hqs)) (nsb_tail ' ' b cs (nsb_tail ' ' a _ hsp)))
  | case2 a b cs hcond ih =>
    rw [rp_cons2, if_neg hcond]
    have hqcs : nsb q (b :: cs) = true := nsb_tail q a _ hqs
    have hscs : nsb ' ' (b :: cs) = true := nsb_tail ' ' a _ hsp
    by_cases ha : a = ' '
    · subst ha
      apply nsb_cons_space q _ _ (ih hqcs hscs)
      have hbq : b ≠ q := by
        simp only [nsb, Bool.and_eq_true] at hqs
        have h1 := hqs.1
        simp at h1
        exact h1
      rcases rp_head_cases p b cs with hh | hh
      · rw [hh]
        simp only [ne_eq, Option.some.injEq]
        exact hbq
      · rw [hh.1]
        simp only [ne_eq, Option.some.injEq]
        exact fun hc => hq hc.symm
    · exact nsb_cons q a _ ha (ih hqcs hscs)
  | case3 l hl =>
    rw [rp_short p l (fun a b cs hh => hl a b cs hh)]
    match l, hl with
    | [], _ => rfl
    | [c], _ => rfl
    | a :: b :: cs, hl => exact ((hl a b cs rfl).elim)

theorem rp_dtb (p : Char) (X : List Char) (hp1 : p ≠ ']')
    (hp2 : p.isDigit = false) (h : dtb (replacePair p X) = true) :
    dtb X = true := by
  induction X using replacePair.induct p with
  | case1 a b cs hcond ih =>
    exfalso
    rw [rp_cons2, if_pos hcond] at h
    simp only [Bool.and_eq_true, decide_eq_true_eq] at hcond
    simp only [dtb] at h
    rw [if_neg (by rw [hcond.2]; exact hp1)] at h
    rw [if_neg (by rw [hcond.2, hp2]; simp)] at h
    cases h
  | case2 a b cs hcond ih =>
    rw [rp_cons2, if_neg hcond] at h
    simp only [dtb] at h ⊢
    by_cases ha : a = ']'
    · rw [if_pos ha]
    · rw [if_neg ha] at h ⊢
      by_cases hd : a.isDigit
      · rw [if_pos hd] at h ⊢
        exact ih h
      · rw [if_neg hd] at h
        cases h
  | case3 l hl =>
    rwa [rp_short p l (fun a b cs hh => hl a b cs hh)] at h

/-- Deleting a space before the punctuation `p` can only create new
adjacencies whose second character is `p`, and `p` is neither a bracket
nor a digit — so no new citation marker can appear. -/
theorem rp_hasCite (p : Char) (l : List Char) (hp1 : p ≠ '[') (hp2 : p ≠ ']')
    (hp3 : p.isDigit = false) (h : hasCite (replacePair p l) = true) :
    hasCite l = true := by
  induction l using replacePair.induct p with
  | case1 a b cs hcond ih =>
    rw [rp_cons2, if_pos hcond] at h
    simp only [Bool.and_eq_true, decide_eq_true_eq] at hcond
    simp only [hasCite, Bool.or_eq_true] at h
    rcases h with h | h
    · exfalso
      cases hrp : replacePair p cs with
      | nil =>
        rw [hrp] at h
        cases h
      | cons x xs =>
        rw [hrp] at h
        simp only [hasCiteAt, Bool.and_eq_true, decide_eq_true_eq] at h
        exact hp1 (hcond.2 ▸ h.1.1)
    · exact hasCite_cons a _ (hasCite_cons b _ (ih h))
  | case2 a b cs hcond ih =>
    rw [rp_cons2, if_neg hcond] at h
    simp only [hasCite, Bool.or_eq_true] at h
    rcases h with h | h
    · apply hasCiteAt_hasCite
      cases cs with
      | nil =>
        exfalso
        rw [rp_single] at h
        simp only [hasCiteAt, Bool.and_eq_true, decide_eq_true_eq] at h
        obtain ⟨⟨ha2, hb2⟩, hd2⟩ := h
        simp only [dtb] at hd2
        by_cases hbr : b = ']'
        · rw [hbr] at hb2
          exact absurd hb2 (by decide)
        · rw [if_neg hbr, if_pos hb2] at hd2
          cases hd2
      | cons c2 cs2 =>
        rw [rp_cons2] at h
        by_cases hc2 : b = ' ' && c2 = p
        · rw [if_pos hc2] at h
          exfalso
          simp only [Bool.and_eq_true, decide_eq_true_eq] at hc2
          simp only [hasCiteAt, Bool.and_eq_true, decide_eq_true_eq] at h
          rw [hc2.2] at h
          have hdig := h.1.2
          rw [hp3] at hdig
          cases hdig
        · rw [if_neg hc2] at h
          simp only [hasCiteAt, Bool.and_eq_true, decide_eq_true_eq] at h
          obtain ⟨⟨ha2, hb2⟩, hd2⟩ := h
          have hbne : b ≠ ']' := by
            intro hbr
            rw [hbr] at hb2
            exact absurd hb2 (by decide)
          rw [dtb_cons_digit b _ hb2 hbne] at hd2
          have hd3 : dtb (c2 :: cs2) = true := rp_dtb p _ hp2 hp3 hd2
          simp only [hasCiteAt, Bool.and_eq_true, decide_eq_true_eq]
          exact ⟨⟨ha2, hb2⟩, by rw [dtb_cons_digit b _ hb2 hbne]; exact hd3⟩
    · exact hasCite_cons a _ (ih h)
  | case3 l hl =>
    rwa [rp_short p l (fun a b cs hh => hl a b cs hh)] at h

theorem rp_nocite (p : Char) (l : List Char) (hp1 : p ≠ '[') (hp2 : p ≠ ']')
    (hp3 : p.isDigit = false) (h : hasCite l = false) :
    hasCite (replacePair p l) = false := by
  by_contra hc
  rw [Bool.not_eq_false] at hc
  rw [rp_hasCite p l hp1 hp2 hp3 hc] at h
  cases h

/-! ### Whitespace collapse and strip are the identity on tidy text -/

theorem collapse_id_aux (l : List Char) (h1 : onlySpace l = true)
    (h2 : nsb ' ' l = true) :
    collapseAux false l = l ∧ (headNotWs l = true → collapseAux true l = l) := by
  induction l with
  | nil => exact ⟨rfl, fun _ => rfl⟩
  | cons c cs ih =>
    have hcs1 : onlySpace cs = true := onlySpace_sub _ _ (fun x hx => by simp [hx]) h1
    have hcs2 : nsb ' ' cs = true := nsb_tail ' ' c cs h2
    obtain ⟨ihf, iht⟩ := ih hcs1 hcs2
    by_cases hws : isWs c = true
    · have hc : c = ' ' := onlySpace_mem _ h1 c (by simp) hws
      subst hc
      have hhead : headNotWs cs = true := by
        cases hcc : cs with
        | nil => rfl
        | cons d ds =>
          have hd : d ≠ ' ' := by
            rw [hcc] at h2
            simp only [nsb, Bool.and_eq_true] at h2
            have h21 := h2.1
            simp at h21
            exact h21
          simp only [headNotWs]
          by_cases hdw : isWs d = true
          · exact absurd (onlySpace_mem _ h1 d (by rw [hcc]; simp) hdw) hd
          · simpa using hdw
      constructor
      · simp only [collapseAux]
        rw [if_pos hws, iht hhead]
        simp
      · intro hh
        simp only [headNotWs] at hh
        rw [hws] at hh
        cases hh
    · have hws' : ¬ isWs c = true := hws
      constructor
      · simp only [collapseAux]
        rw [if_neg hws', ihf]
      · intro _
        simp only [collapseAux]
        rw [if_neg hws', ihf]

theorem collapse_id (l : List Char) (h1 : onlySpace l = true)
    (h2 : nsb ' ' l = true) : collapseL l = l :=
  (collapse_id_aux l h1 h2).1

theorem dropWhile_id_of_headNot (l : List Char) (h : headNotWs l = true) :
    l.dropWhile isWs = l := by
  cases l with
  | nil => rfl
  | cons c cs =>
    simp only [headNotWs] at h
    rw [List.dropWhile_cons, if_neg (by simpa using h)]

theorem strip_id (l : List Char) (h3 : headNotWs l = true)
    (h4 : lastNotWs l = true) : stripL l = l := by
  rw [lastNotWs] at h4
  rw [stripL, dropWhile_id_of_headNot l h3, dropWhile_id_of_headNot l.reverse h4,
    List.reverse_reverse]

/-! ### The four replaces preserve tidiness and leave no space-punct pairs -/

theorem replacePuncts_facts (l : List Char)
    (h1 : onlySpace l = true) (h2 : nsb ' ' l = true) (h3 : headNotWs l = true)
    (h4 : lastNotWs l = true) (h5 : hasCite l = false) :
    onlySpace (replacePuncts l) = true ∧ nsb ' ' (replacePuncts l) = true ∧
    headNotWs (replacePuncts l) = true ∧ lastNotWs (replacePuncts l) = true ∧
    hasCite (replacePuncts l) = false ∧
    nsb ',' (replacePuncts l) = true ∧ nsb '.' (replacePuncts l) = true ∧
    nsb ';' (replacePuncts l) = true ∧ nsb ':' (replacePuncts l) = true ∧
    (l ≠ [] → replacePuncts l ≠ []) := by
  have k1 := rp_onlySpace ',' l h1
  have k2 := rp_nsb_space ',' l (by decide) h2
  have k3 := rp_headNotWs ',' l h3
  have k4 := rp_lastNotWs ',' l (by decide) h4
  have k5 := rp_nocite ',' l (by decide) (by decide) (by decide) h5
  have k6 := rp_nsb_self ',' l (by decide) h2
  have m1 := rp_onlySpace '.' _ k1
  have m2 := rp_nsb_space '.' _ (by decide) k2
  have m3 := rp_headNotWs '.' _ k3
  have m4 := rp_lastNotWs '.' _ (by decide) k4
  have m5 := rp_nocite '.' _ (by decide) (by decide) (by decide) k5
  have m6 := rp_nsb_other '.' ',' _ (by decide) (by decide) k6 k2
  have m7 := rp_nsb_self '.' _ (by decide) k2
  have n1 := rp_onlySpace ';' _ m1
  have n2 := rp_nsb_space ';' _ (by decide) m2
  have n3 := rp_headNotWs ';' _ m3
  have n4 := rp_lastNotWs ';' _ (by decide) m4
  have n5 := rp_nocite ';' _ (by decide) (by decide) (by decide) m5
  have n6 := rp_nsb_other ';' ',' _ (by decide) (by decide) m6 m2
  have n7 := rp_nsb_other ';' '.' _ (by decide) (by decide) m7 m2
  have n8 := rp_nsb_self ';' _ (by decide) m2
  have o1 := rp_onlySpace ':' _ n1
  have o2 := rp_nsb_space ':' _ (by decide) n2
  have o3 := rp_headNotWs ':' _ n3
  have o4 := rp_lastNotWs ':' _ (by decide) n4
  have o5 := rp_nocite ':' _ (by decide) (by decide) (by decide) n5
  have o6 := rp_nsb_other ':' ',' _ (by decide) (by decide) n6 n2
  have o7 := rp_nsb_other ':' '.' _ (by decide) (by decide) n7 n2
  have o8 := rp_nsb_other ':' ';' _ (by decide) (by decide) n8 n2
  have o9 := rp_nsb_self ':' _ (by decide) n2
  refine ⟨o1, o2, o3, o4, o5, o6, o7, o8, o9, fun hne => ?_⟩
  exact rp_ne_nil ':' _ (rp_ne_nil ';' _ (rp_ne_nil '.' _ (rp_ne_nil ',' _ hne)))

theorem replacePuncts_id (l : List Char)
    (hc : nsb ',' l = true) (hdo : nsb '.' l = true)
    (hsc : nsb ';' l = true) (hco : nsb ':' l = true) :
    replacePuncts l = l := by
  rw [replacePuncts, rp_eq_of_nsb ',' l hc, rp_eq_of_nsb '.' l hdo,
    rp_eq_of_nsb ';' l hsc, rp_eq_of_nsb ':' l hco]

/-- C7 counterexample: cleaning "x [1][2] ," once yields "x ," (the two
adjacent citation markers each leave a space, the doubled space defeats
the single-pass " ," replace, and the final collapse leaves one space
before the comma), and cleaning again yields "x," — the composition is
not idempotent. -/
theorem C7_counterexample :
    cleanComp (cleanComp "x [1][2] ,") ≠ cleanComp "x [1][2] ," := by decide

/-- C7 amended: the cleaning composition (whitespace normalization
followed by citation-marker and space cleanup) is idempotent on every
string containing no citation marker (no substring of the form
left-bracket digits right-bracket); on strings with citation markers a
second application can contract further (see the counterexample). -/
theorem C7_clean_idempotent (s : String) (h : hasCite s.data = false) :
    cleanComp (cleanComp s) = cleanComp s := by
  by_cases hs : s = ""
  · subst hs
    rfl
  · obtain ⟨hN1, hN2, hN3, hN4⟩ := normalizeL_facts s.data
    have hN5 : hasCite (normalizeL s.data) = false := normalizeL_nocite s.data h
    have hnt : normalize_text s = ⟨normalizeL s.data⟩ := by
      rw [normalize_text, if_neg hs]
    by_cases hN : normalizeL s.data = []
    · have h1 : cleanComp s = "" := by
        rw [cleanComp, hnt, hN]
        rfl
      rw [h1]
      rfl
    · have hmkne : (⟨normalizeL s.data⟩ : String) ≠ "" := by
        intro hcon
        exact hN (congrArg String.data hcon)
      have hcsub : citeSubL (normalizeL s.data) = normalizeL s.data :=
        citeSubL_id _ hN5
      obtain ⟨hM1, hM2, hM3, hM4, hM5, hM6, hM7, hM8, hM9, hMne⟩ :=
        replacePuncts_facts (normalizeL s.data) hN1 hN2 hN3 hN4 hN5
      have hMne' : replacePuncts (normalizeL s.data) ≠ [] := hMne hN
      have hclean1 : cleanComp s = ⟨replacePuncts (normalizeL s.data)⟩ := by
        rw [cleanComp, hnt, clean_citations_and_spaces, if_neg hmkne]
        have : (⟨normalizeL s.data⟩ : String).data = normalizeL s.data := rfl
        rw [this, hcsub, collapse_id _ hM1 hM2, strip_id _ hM3 hM4]
      rw [hclean1]
      have hmkne2 : (⟨replacePuncts (normalizeL s.data)⟩ : String) ≠ "" := by
        intro hcon
        exact hMne' (congrArg String.data hcon)
      have hnt2 : normalize_text ⟨replacePuncts (normalizeL s.data)⟩
          = ⟨replacePuncts (normalizeL s.data)⟩ := by
        rw [normalize_text, if_neg hmkne2]
        have : (⟨replacePuncts (normalizeL s.data)⟩ : String).data
            = replacePuncts (normalizeL s.data) := rfl
        rw [this, normalizeL_id _ hM1 hM2 hM3 hM4]
      rw [cleanComp, hnt2, clean_citations_and_spaces, if_neg hmkne2]
      have hdata : (⟨replacePuncts (normalizeL s.data)⟩ : String).data
          = replacePuncts (normalizeL s.data) := rfl
      rw [hdata, citeSubL_id _ hM5, replacePuncts_id _ hM6 hM7 hM8 hM9,
        collapse_id _ hM1 hM2, strip_id _ hM3 hM4]

/-- Witness for C7 amended at a concrete citation-free string with
doubled spaces and a space before punctuation. -/
theorem C7_clean_idempotent_witness :
    hasCite ("Hello  world , fine .").data = false ∧
    cleanComp (cleanComp "Hello  world , fine .") = cleanComp "Hello  world , fine ." :=
  ⟨by decide, C7_clean_idempotent "Hello  world , fine ." (by decide)⟩

end Txtr
